import Mathlib

set_option maxHeartbeats 1000000
set_option maxRecDepth 8000

/-!
Verification development for the sql-gen repository.

The repository ships one file under version control here (`src/main.rs`, the
CLI wiring).  The schema model, diff engine, model parser and code
synthesizer live in modules (`migrate.rs`, `generate.rs`, `models.rs`,
`db_queries.rs`, `query_generate.rs`) that are declared by `main.rs` but are
not present in the sources; those components are modelled from the
specification (each such definition carries a doc comment starting with
`Modelled from the spec:`).  The CLI definitions (`Options`, `get_options`,
`get_pool`, the argument lists of `build_app`, the `generate`/`migrate`
entry points) are embedded directly from `src/main.rs`.
-/

/-! ### Schema model (spec section 3) -/

/-- Modelled from the spec: scalar type descriptor — base type plus optional
length/precision (the diff compares these structurally). -/
structure TypeDesc where
  base : String
  len : Option Nat
  precision : Option Nat
deriving DecidableEq

/-- Modelled from the spec: a column — name, type descriptor, nullability
flag, optional default expression (opaque string), ordinal position. -/
structure Column where
  name : String
  ty : TypeDesc
  nullable : Bool
  defaultExpr : Option String
  ordinal : Nat
deriving DecidableEq

/-- Modelled from the spec: on-delete/on-update policy tag of a foreign key. -/
inductive RefPolicy where
  | noAction
  | cascade
  | restrictP
  | setNull
  | setDefault
deriving DecidableEq

/-- Modelled from the spec: table key — (schema-namespace, table-name) pair,
unique within a Schema. -/
structure TableKey where
  schema : String
  name : String
deriving DecidableEq

/-- Modelled from the spec: constraint payload — PrimaryKey (ordered column
list), ForeignKey (local columns, referenced table, referenced columns,
policies), Unique (column set), Check (opaque expression). -/
inductive ConstraintDef where
  | primaryKey (cols : List String)
  | foreignKey (cols : List String) (refTable : TableKey) (refCols : List String)
      (onDelete : RefPolicy) (onUpdate : RefPolicy)
  | uniqueCols (cols : List String)
  | check (expr : String)
deriving DecidableEq

/-- Modelled from the spec: constraints have a name, used for drop operations. -/
structure Constraint where
  name : String
  cdef : ConstraintDef
deriving DecidableEq

/-- Modelled from the spec: an index — name, column list, uniqueness flag. -/
structure Index where
  name : String
  columns : List String
  unique : Bool
deriving DecidableEq

/-- Modelled from the spec: a table — key (namespace and name), ordered
column sequence, constraints, indexes. -/
structure Table where
  key : TableKey
  columns : List Column
  constraints : List Constraint
  indexes : List Index
deriving DecidableEq

/-- Modelled from the spec: a schema snapshot — set of tables keyed by
(schema-namespace, table-name). -/
structure Schema where
  tables : List Table
deriving DecidableEq

/-- Modelled from the spec: DDL operation, each variant carrying the minimal
data needed to render the operation without re-consulting the schema. -/
inductive DDLOperation where
  | createTable (table : Table)
  | dropTable (key : TableKey)
  | addColumn (key : TableKey) (col : Column)
  | dropColumn (key : TableKey) (col : String)
  | alterColumnType (key : TableKey) (col : String) (ty : TypeDesc)
  | alterColumnNullability (key : TableKey) (col : String) (nullable : Bool)
  | addConstraint (key : TableKey) (c : Constraint)
  | dropConstraint (key : TableKey) (cname : String)
  | createIndex (key : TableKey) (idx : Index)
  | dropIndex (key : TableKey) (iname : String)
deriving DecidableEq

/-- Spec section 4.1: `lookup(table_key) -> Option<&Table>`. -/
def Schema.lookup (s : Schema) (k : TableKey) : Option Table :=
  s.tables.find? (fun t => t.key == k)

/-- Whether a constraint is a foreign key. -/
def Constraint.isFK : Constraint → Bool
  | ⟨_, .foreignKey _ _ _ _ _⟩ => true
  | _ => false

/-- Table keys a single constraint depends on (the referenced table of a
foreign key). -/
def constraintDeps (c : Constraint) : List TableKey :=
  match c.cdef with
  | .foreignKey _ rt _ _ _ => [rt]
  | _ => []

/-- All foreign-key dependency targets of a table. -/
def fkDeps (t : Table) : List TableKey :=
  t.constraints.flatMap constraintDeps

/-! ### Deterministic table ordering (spec section 4.1)

Topological sort by foreign-key dependency with name tie-break; a cycle
falls back to name order among its members. String comparison is done on
the character codes so that everything evaluates inside the kernel. -/

def charListLe : List Char → List Char → Bool
  | [], _ => true
  | _ :: _, [] => false
  | a :: as, b :: bs =>
    if a.toNat < b.toNat then true
    else if b.toNat < a.toNat then false
    else charListLe as bs

def strLe (a b : String) : Bool := charListLe a.data b.data

def keyLe (a b : TableKey) : Bool :=
  if a.schema = b.schema then strLe a.name b.name else strLe a.schema b.schema

def tableLe (a b : Table) : Prop := keyLe a.key b.key = true

instance : DecidableRel tableLe := fun a b => by unfold tableLe; infer_instance

/-- Name-sorted table list (tie-break order of the dependency ordering). -/
def sortedTables (l : List Table) : List Table := List.insertionSort tableLe l

/-- A table is eligible for emission when every foreign-key target is already
placed, is the table itself, or lies outside the set being ordered. -/
def eligibleTable (placed : List TableKey) (remKeys : List TableKey) (t : Table) : Bool :=
  (fkDeps t).all (fun k => placed.contains k || k == t.key || !(remKeys.contains k))

/-- The next table to emit: the name-least eligible one, or — when none is
eligible (a cycle in the foreign-key graph) — the name-least remaining one. -/
def pickNext (placed : List TableKey) (remaining : List Table) : Option Table :=
  match (sortedTables remaining).find?
      (eligibleTable placed (remaining.map (fun t => t.key))) with
  | some t => some t
  | none =>
    match sortedTables remaining with
    | [] => none
    | s :: _ => some s

/-- Modelled from the spec: dependency ordering worker.  Repeatedly emits the
name-least eligible table; if none is eligible (a cycle), falls back to the
name-least remaining table. -/
def depOrderAux : Nat → List TableKey → List Table → List Table
  | 0, _, _ => []
  | n + 1, placed, remaining =>
    match pickNext placed remaining with
    | none => []
    | some next => next :: depOrderAux n (next.key :: placed) (remaining.erase next)

/-- Modelled from the spec: deterministic total ordering over tables,
topologically sorted by foreign-key dependency, ties broken by name. -/
def depOrder (l : List Table) : List Table := depOrderAux l.length [] l

/-! ### Diff engine (spec section 4.4) -/

/-- Constraint/index identity comparison: an entry of `bs` with the same name
exists and its whole definition is equal ("diffed by identity
(name + definition)"). -/
def keptBy {α : Type} [BEq α] (nm : α → String) (bs : List α) (c : α) : Bool :=
  match bs.find? (fun d => nm d == nm c) with
  | some d => d == c
  | none => false

/-- A column of one table that is also present (by name) in the other. -/
def columnKept (b : Table) (c : Column) : Bool :=
  (b.columns.find? (fun d => d.name == c.name)).isSome

/-- Modelled from the spec: constraints of `a` missing from `b` or differing
in definition are dropped. -/
def constraintDrops (a b : Table) : List DDLOperation :=
  (a.constraints.filter (fun c => !(keptBy (fun c => c.name) b.constraints c))).map
    (fun c => DDLOperation.dropConstraint a.key c.name)

/-- Modelled from the spec: constraints of `b` missing from `a` or differing
in definition are added. -/
def constraintAdds (a b : Table) : List DDLOperation :=
  (b.constraints.filter (fun c => !(keptBy (fun c => c.name) a.constraints c))).map
    (fun c => DDLOperation.addConstraint a.key c)

/-- Modelled from the spec: indexes of `a` missing from `b` or differing are
dropped. -/
def indexDrops (a b : Table) : List DDLOperation :=
  (a.indexes.filter (fun i => !(keptBy (fun i => i.name) b.indexes i))).map
    (fun i => DDLOperation.dropIndex a.key i.name)

/-- Modelled from the spec: indexes of `b` missing from `a` or differing are
created. -/
def indexAdds (a b : Table) : List DDLOperation :=
  (b.indexes.filter (fun i => !(keptBy (fun i => i.name) a.indexes i))).map
    (fun i => DDLOperation.createIndex a.key i)

/-- Modelled from the spec: columns of `a` absent (by name) from `b` are
dropped. -/
def columnDrops (a b : Table) : List DDLOperation :=
  (a.columns.filter (fun c => !(columnKept b c))).map
    (fun c => DDLOperation.dropColumn a.key c.name)

/-- Modelled from the spec: columns of `b` absent (by name) from `a` are
added (the operation carries the column, so a default rides along). -/
def columnAdds (a b : Table) : List DDLOperation :=
  (b.columns.filter (fun c => !(columnKept a c))).map
    (fun c => DDLOperation.addColumn a.key c)

/-- Modelled from the spec: for a desired column present in both tables,
compare type descriptor and nullability independently and emit alters only
when changed. -/
def altersFor (a : Table) (c : Column) : List DDLOperation :=
  match a.columns.find? (fun d => d.name == c.name) with
  | none => []
  | some c0 =>
    (if c0.ty == c.ty then [] else [DDLOperation.alterColumnType a.key c.name c.ty]) ++
    (if c0.nullable == c.nullable then []
     else [DDLOperation.alterColumnNullability a.key c.name c.nullable])

/-- All column alterations between two same-keyed tables. -/
def columnAlters (a b : Table) : List DDLOperation :=
  b.columns.flatMap (altersFor a)

/-- Modelled from the spec: an only-in-actual table has all of its own
constraints and indexes dropped before the table itself is dropped. -/
def tableConstraintIndexDrops (t : Table) : List DDLOperation :=
  t.constraints.map (fun c => DDLOperation.dropConstraint t.key c.name) ++
  t.indexes.map (fun i => DDLOperation.dropIndex t.key i.name)

/-- Modelled from the spec: CreateTable defers ForeignKey constraints into a
second pass, so the emitted table carries everything but its foreign keys. -/
def stripFKs (t : Table) : Table :=
  { t with constraints := t.constraints.filter (fun c => !(c.isFK)) }

/-- The foreign-key constraints of a table (deferred at creation). -/
def tableFKs (t : Table) : List Constraint :=
  t.constraints.filter (fun c => c.isFK)

/-- Tables present in `actual` whose key is absent from `desired`. -/
def toDropTables (actual desired : Schema) : List Table :=
  actual.tables.filter (fun t => (desired.lookup t.key).isNone)

/-- Tables present in `desired` whose key is absent from `actual`. -/
def toCreateTables (actual desired : Schema) : List Table :=
  desired.tables.filter (fun t => (actual.lookup t.key).isNone)

/-- Tables present in both snapshots, paired actual-first. -/
def inBothPairs (actual desired : Schema) : List (Table × Table) :=
  actual.tables.filterMap (fun a => (desired.lookup a.key).map (fun b => (a, b)))

/-- Phase 1 of the final ordering: all constraint/index drops.  In-both
tables drop their missing/differing entries; to-be-dropped tables drop all
their own constraints and indexes, in reverse dependency order. -/
def phaseConstraintIndexDrops (actual desired : Schema) : List DDLOperation :=
  (inBothPairs actual desired).flatMap
    (fun ab => constraintDrops ab.1 ab.2 ++ indexDrops ab.1 ab.2) ++
  ((depOrder (toDropTables actual desired)).reverse).flatMap tableConstraintIndexDrops

/-- Phase 2: all column drops. -/
def phaseColumnDrops (actual desired : Schema) : List DDLOperation :=
  (inBothPairs actual desired).flatMap (fun ab => columnDrops ab.1 ab.2)

/-- Phase 3: table drops, reverse dependency order. -/
def phaseTableDrops (actual desired : Schema) : List DDLOperation :=
  ((depOrder (toDropTables actual desired)).reverse).map
    (fun t => DDLOperation.dropTable t.key)

/-- Phase 4: table creates in dependency order, foreign keys deferred. -/
def phaseTableCreates (actual desired : Schema) : List DDLOperation :=
  (depOrder (toCreateTables actual desired)).map
    (fun t => DDLOperation.createTable (stripFKs t))

/-- Phase 5: column adds and alters for in-both tables. -/
def phaseColumnAddsAlters (actual desired : Schema) : List DDLOperation :=
  (inBothPairs actual desired).flatMap
    (fun ab => columnAdds ab.1 ab.2 ++ columnAlters ab.1 ab.2)

/-- Phase 6: constraint/index adds — in-both tables first, then the deferred
foreign keys of newly created tables in dependency order. -/
def phaseConstraintIndexAdds (actual desired : Schema) : List DDLOperation :=
  (inBothPairs actual desired).flatMap
    (fun ab => constraintAdds ab.1 ab.2 ++ indexAdds ab.1 ab.2) ++
  (depOrder (toCreateTables actual desired)).flatMap
    (fun t => (tableFKs t).map (fun c => DDLOperation.addConstraint t.key c))

/-- Modelled from the spec: `diff(actual, desired)` — deterministic, pure;
final operation list ordering is constraint/index drops, column drops, table
drops, table creates, column adds/alters, constraint/index adds. -/
def Schema.diff (actual desired : Schema) : List DDLOperation :=
  phaseConstraintIndexDrops actual desired ++
  phaseColumnDrops actual desired ++
  phaseTableDrops actual desired ++
  phaseTableCreates actual desired ++
  phaseColumnAddsAlters actual desired ++
  phaseConstraintIndexAdds actual desired

/-! ### Applying operations to a snapshot

Modelled from the spec's "conceptually applying" a diff to a schema
(spec section 8, symmetry sanity). -/

/-- Rewrite the table with the given key (if present) through `f`. -/
def Schema.modifyTable (s : Schema) (k : TableKey) (f : Table → Table) : Schema :=
  ⟨s.tables.map (fun t => if t.key = k then f t else t)⟩

/-- The key an operation targets. -/
def opKey : DDLOperation → TableKey
  | .createTable t => t.key
  | .dropTable k => k
  | .addColumn k _ => k
  | .dropColumn k _ => k
  | .alterColumnType k _ _ => k
  | .alterColumnNullability k _ _ => k
  | .addConstraint k _ => k
  | .dropConstraint k _ => k
  | .createIndex k _ => k
  | .dropIndex k _ => k

/-- Operations that rewrite an existing table in place (everything except
table creation/drop). -/
def isModify : DDLOperation → Bool
  | .createTable _ => false
  | .dropTable _ => false
  | _ => true

/-- Per-table effect of a modify operation. -/
def modFn : DDLOperation → Table → Table
  | .addColumn _ c => fun t => { t with columns := t.columns ++ [c] }
  | .dropColumn _ n => fun t => { t with columns := t.columns.filter (fun c => !(c.name == n)) }
  | .alterColumnType _ n ty => fun t =>
      { t with columns := t.columns.map (fun c => if c.name = n then { c with ty := ty } else c) }
  | .alterColumnNullability _ n nb => fun t =>
      { t with columns := t.columns.map (fun c => if c.name = n then { c with nullable := nb } else c) }
  | .addConstraint _ c => fun t => { t with constraints := t.constraints ++ [c] }
  | .dropConstraint _ n => fun t =>
      { t with constraints := t.constraints.filter (fun c => !(c.name == n)) }
  | .createIndex _ i => fun t => { t with indexes := t.indexes ++ [i] }
  | .dropIndex _ n => fun t => { t with indexes := t.indexes.filter (fun i => !(i.name == n)) }
  | _ => id

/-- Apply a single DDL operation to a snapshot. -/
def applyOp (s : Schema) (op : DDLOperation) : Schema :=
  match op with
  | .createTable t => ⟨s.tables ++ [t]⟩
  | .dropTable k => ⟨s.tables.filter (fun t => !(t.key == k))⟩
  | op => s.modifyTable (opKey op) (modFn op)

/-- Apply a list of DDL operations left to right. -/
def Schema.apply (s : Schema) (ops : List DDLOperation) : Schema :=
  ops.foldl applyOp s

/-! ### Well-formedness (spec section 3 invariants) -/

/-- Ordinal positions strictly increasing, gapless, matching sequence order,
starting at `n`. -/
def ordinalsFrom : Nat → List Column → Prop
  | _, [] => True
  | n, c :: cs => c.ordinal = n ∧ ordinalsFrom (n + 1) cs

instance instDecOrdinalsFrom (n : Nat) (l : List Column) : Decidable (ordinalsFrom n l) :=
  match l with
  | [] => isTrue trivial
  | c :: cs =>
    have : Decidable (ordinalsFrom (n + 1) cs) := instDecOrdinalsFrom (n + 1) cs
    decidable_of_iff (c.ordinal = n ∧ ordinalsFrom (n + 1) cs) (by simp [ordinalsFrom])

/-- Per-table invariants: unique column, constraint and index names, and
catalog-style ordinal numbering starting at 1. -/
def Table.wf (t : Table) : Prop :=
  t.columns.Pairwise (fun a b => a.name ≠ b.name) ∧
  t.constraints.Pairwise (fun a b => a.name ≠ b.name) ∧
  t.indexes.Pairwise (fun a b => a.name ≠ b.name) ∧
  ordinalsFrom 1 t.columns

/-- No still-declared foreign key references an absent table — the validity
notion of the diff-ordering guarantee. -/
def Schema.fkTableValid (s : Schema) : Prop :=
  ∀ t ∈ s.tables, ∀ k ∈ fkDeps t, (s.lookup k).isSome

/-- Modelled from the spec: a well-formed snapshot — unique table keys,
per-table invariants, and every foreign key's referenced table present in
the same snapshot. -/
def Schema.WellFormed (s : Schema) : Prop :=
  (s.tables.map (fun t => t.key)).Pairwise (fun a b => a ≠ b) ∧
  (∀ t ∈ s.tables, t.wf) ∧
  s.fkTableValid

/-! ### Operation-shape predicates (spec section 4.4, step 5) -/

def isConstraintIndexDrop : DDLOperation → Bool
  | .dropConstraint _ _ => true
  | .dropIndex _ _ => true
  | _ => false

def isColumnDrop : DDLOperation → Bool
  | .dropColumn _ _ => true
  | _ => false

def isTableDrop : DDLOperation → Bool
  | .dropTable _ => true
  | _ => false

def isTableCreate : DDLOperation → Bool
  | .createTable _ => true
  | _ => false

def isColumnAddAlter : DDLOperation → Bool
  | .addColumn _ _ => true
  | .alterColumnType _ _ _ => true
  | .alterColumnNullability _ _ _ => true
  | _ => false

def isConstraintIndexAdd : DDLOperation → Bool
  | .addConstraint _ _ => true
  | .createIndex _ _ => true
  | _ => false

/-- A risky operation per the spec's error taxonomy: a non-nullable column
addition without a default, or any table drop. -/
def DDLOperation.isRisky : DDLOperation → Bool
  | .addColumn _ c => !c.nullable && c.defaultExpr.isNone
  | .dropTable _ => true
  | _ => false

/-! ### Code synthesizer and model parser (spec sections 4.3, 4.5) -/

/-- Modelled from the spec: target language type of the fixed SQL-type
mapping. -/
inductive TargetType where
  | i16
  | i32
  | i64
  | f32
  | f64
  | strT
  | boolT
  | timestampT
  | dateT
  | uuidT
deriving DecidableEq

/-- Modelled from the spec: the fixed SQL-type to target-type mapping table;
an unmapped catalog type fails synthesis with UnsupportedType. -/
def mapType (d : TypeDesc) : Option TargetType :=
  if d.len.isSome || d.precision.isSome then none
  else if d.base = "smallint" then some .i16
  else if d.base = "integer" then some .i32
  else if d.base = "bigint" then some .i64
  else if d.base = "real" then some .f32
  else if d.base = "double precision" then some .f64
  else if d.base = "text" then some .strT
  else if d.base = "boolean" then some .boolT
  else if d.base = "timestamp" then some .timestampT
  else if d.base = "date" then some .dateT
  else if d.base = "uuid" then some .uuidT
  else none

/-- Modelled from the spec: the inverse direction used by the model parser
to reconstruct the catalog type from a generated field's type. -/
def unmapType : TargetType → TypeDesc
  | .i16 => ⟨"smallint", none, none⟩
  | .i32 => ⟨"integer", none, none⟩
  | .i64 => ⟨"bigint", none, none⟩
  | .f32 => ⟨"real", none, none⟩
  | .f64 => ⟨"double precision", none, none⟩
  | .strT => ⟨"text", none, none⟩
  | .boolT => ⟨"boolean", none, none⟩
  | .timestampT => ⟨"timestamp", none, none⟩
  | .dateT => ⟨"date", none, none⟩
  | .uuidT => ⟨"uuid", none, none⟩

/-- Modelled from the spec: a synthesized model field (name, mapped type,
nullability tag, default expression carried for later diffing). -/
structure FieldDef where
  name : String
  ty : TargetType
  nullable : Bool
  defaultExpr : Option String
deriving DecidableEq

/-- Modelled from the spec: the fixed set of query definitions. -/
inductive QueryKind where
  | selectByPk
  | insertAll
  | updateByPk
  | deleteByPk
  | selectAll
deriving DecidableEq

/-- Modelled from the spec: a query definition with its parameter list (the
parameter columns' names, in parameter-position order). -/
structure QueryDef where
  kind : QueryKind
  params : List String
deriving DecidableEq

/-- Modelled from the spec: in-memory synthesis output for one table
(fields + queries), prior to rendering/writing. -/
structure GeneratedUnit where
  key : TableKey
  fields : List FieldDef
  constraints : List Constraint
  queries : List QueryDef
deriving DecidableEq

/-- The primary-key column list of a table, if any. -/
def pkColsOf (t : Table) : Option (List String) :=
  (t.constraints.filterMap (fun c => match c.cdef with
    | .primaryKey cols => some cols
    | _ => none)).head?

/-- Non-primary-key column names, in ordinal order. -/
def nonPkNames (t : Table) (pk : List String) : List String :=
  (t.columns.map (fun c => c.name)).filter (fun n => !(pk.contains n))

/-- Modelled from the spec: the fixed query set.  Every parameter list is
built directly from the column ordinal order, primary-key columns first for
key-based queries; a table with no primary key still synthesizes
insert/select-all but omits the key-based queries. -/
def queriesFor (t : Table) : List QueryDef :=
  match pkColsOf t with
  | some pk =>
    [⟨.selectByPk, pk⟩,
     ⟨.insertAll, t.columns.map (fun c => c.name)⟩,
     ⟨.updateByPk, pk ++ nonPkNames t pk⟩,
     ⟨.deleteByPk, pk⟩,
     ⟨.selectAll, []⟩]
  | none =>
    [⟨.insertAll, t.columns.map (fun c => c.name)⟩,
     ⟨.selectAll, []⟩]

/-- Modelled from the spec: synthesis failure — an unknown catalog type. -/
inductive SynthError where
  | unsupportedType (base : String)
deriving DecidableEq

/-- Synthesize the field list of one table, in ordinal order; fails on the
first unmapped type. -/
def synthFields : List Column → Except SynthError (List FieldDef)
  | [] => .ok []
  | c :: cs =>
    match mapType c.ty with
    | none => .error (.unsupportedType c.ty.base)
    | some tt =>
      match synthFields cs with
      | .error e => .error e
      | .ok fs => .ok (⟨c.name, tt, c.nullable, c.defaultExpr⟩ :: fs)

/-- Modelled from the spec: synthesis of one table — one field per column in
ordinal order plus the fixed query set; constraints ride along so the model
parser can reconstruct them. -/
def synthTable (t : Table) : Except SynthError GeneratedUnit :=
  match synthFields t.columns with
  | .error e => .error e
  | .ok fs => .ok ⟨t.key, fs, t.constraints, queriesFor t⟩

/-- Synthesize a list of tables, failing on the first error. -/
def synthUnits : List Table → Except SynthError (List GeneratedUnit)
  | [] => .ok []
  | t :: ts =>
    match synthTable t with
    | .error e => .error e
    | .ok u =>
      match synthUnits ts with
      | .error e => .error e
      | .ok us => .ok (u :: us)

/-- Modelled from the spec: `synthesize(schema)` — per table, in the
Schema's deterministic dependency order. -/
def synthesize (s : Schema) : Except SynthError (List GeneratedUnit) :=
  synthUnits (depOrder s.tables)

/-- Modelled from the spec: the model parser reconstructs columns from the
generated field list, assigning ordinal positions from the field order. -/
def parseFields : Nat → List FieldDef → List Column
  | _, [] => []
  | n, f :: fs => ⟨f.name, unmapType f.ty, f.nullable, f.defaultExpr, n⟩ :: parseFields (n + 1) fs

/-- Modelled from the spec: parse one generated model back into a table.
Indexes are not part of the synthesis format, so the parsed table has none. -/
def parseUnit (u : GeneratedUnit) : Table :=
  ⟨u.key, parseFields 1 u.fields, u.constraints, []⟩

/-- Modelled from the spec: `parse(directory)` — reconstructs the Schema
implied by a set of generated model units (on-disk rendering is an external
concern, so the parser is modelled at the unit level). -/
def parse (units : List GeneratedUnit) : Schema :=
  ⟨units.map parseUnit⟩

/-- The structural subset the synthesis format preserves: everything except
the index list. -/
def eraseIndexes (t : Table) : Table :=
  { t with indexes := [] }

/-! ### CLI embedding from src/main.rs -/

/-- Clap match results as the program queries them: `value_of`,
`values_of`, `is_present`. -/
structure ArgMatches where
  value : String → Option String
  values : String → Option (List String)
  present : String → Bool

/-- Process environment: `env::var` success values. -/
structure Env where
  var : String → Option String

/-- Embedding of `Options` from src/main.rs. -/
structure Options where
  is_docker : Bool
  models : String
  migrations : Option String
  context : Option String
  database_url : String
  schemas : Option (List String)
  tables : Option (List String)
  force : Bool
deriving DecidableEq

def GENERATE : String := "generate"

def MIGRATE : String := "migrate"

def MODELS : String := "models"

def CONTEXT : String := "context"

def DATABASE : String := "database"

def DOCKER : String := "docker"

def MIGRATIONS : String := "migrations"

def SCHEMA : String := "schema"

def TABLE : String := "table"

def FORCE : String := "force"

def DEFAULT_MODELS_FOLDER : String := "src/models/"

def DEFAULT_MIGRATIONS_FOLDER : String := "migrations/"

def ENV_SQLGEN_MODELS_FOLDER : String := "SQLGEN_MODELS_FOLDER"

def ENV_SQLGEN_TABLE : String := "SQLGEN_TABLE"

def ENV_SQLGEN_SCHEMA : String := "SQLGEN_SCHEMA"

def ENV_DATABASE_URL : String := "DATABASE_URL"

/-- Rust `Option::ok_or_else`: a `None` is replaced by the error value the
closure produces (embedding of `.ok_or_else(|| env::var(...))` — note the
closure's result becomes the *error*, never the success value). -/
def optionOkOrElse {α ε : Type} (o : Option α) (f : Unit → ε) : Except ε α :=
  match o with
  | some v => .ok v
  | none => .error (f ())

/-- Rust `Result::expect`: panics with the message when the receiver is an
error, regardless of what the error contains.  A process panic is modelled
as `Except.error msg`. -/
def resultExpect {α ε : Type} (r : Except ε α) (msg : String) : Except String α :=
  match r with
  | .ok v => .ok v
  | .error _ => .error msg

/-- Embedding of `get_options` from src/main.rs lines 45-105: reads the CLI
matches and the process environment into `Options`; panics are modelled as
`Except.error` carrying the panic message. -/
def get_options (subcommand : String) (m : ArgMatches) (env : Env) : Except String Options :=
  match resultExpect (optionOkOrElse (m.value MODELS) (fun _ => env.var ENV_SQLGEN_MODELS_FOLDER))
      "Could not get output modles folder" with
  | .error e => .error e
  | .ok models =>
    let context := m.value CONTEXT
    match resultExpect (optionOkOrElse (m.value DATABASE) (fun _ => env.var ENV_DATABASE_URL))
        "Must provide either a database uri or `docker`" with
    | .error e => .error e
    | .ok database_url =>
      let is_docker := database_url == DOCKER
      let migrations0 := m.value MIGRATIONS
      match (if migrations0.isNone then
               (if subcommand == MIGRATE then Except.ok (some DEFAULT_MIGRATIONS_FOLDER)
                else if is_docker then
                  Except.error "Migrations folder is required for docker database"
                else Except.ok (none : Option String))
             else Except.ok migrations0) with
      | .error e => .error e
      | .ok migrations =>
        let force := m.present FORCE
        let schemas := (m.values SCHEMA).or
          ((env.var ENV_SQLGEN_SCHEMA).map (fun s => s.splitOn ","))
        let tables := (m.values TABLE).or
          ((env.var ENV_SQLGEN_TABLE).map (fun t => t.splitOn ","))
        Except.ok
          { is_docker := is_docker, models := models, migrations := migrations,
            context := context, database_url := database_url, schemas := schemas,
            tables := tables, force := force }

/-- Embedding of sqlx's `PgPoolOptions` builder (only the field the program
sets). -/
structure PgPoolOptions where
  maxConnections : Nat
deriving DecidableEq

/-- `PgPoolOptions::new()` — sqlx defaults to at most 10 connections. -/
def PgPoolOptions.new : PgPoolOptions := ⟨10⟩

/-- The `.max_connections(n)` builder call. -/
def PgPoolOptions.max_connections (o : PgPoolOptions) (n : Nat) : PgPoolOptions :=
  { o with maxConnections := n }

/-- A constructed pool: its options and target url. -/
structure PgPool where
  options : PgPoolOptions
  url : String
deriving DecidableEq

/-- Embedding of `get_pool` from src/main.rs lines 144-155: the pool is
built with `PgPoolOptions::new().max_connections(5)`. -/
def get_pool (database_url : String) : PgPool :=
  ⟨PgPoolOptions.new.max_connections 5, database_url⟩

/-- Modelled from the spec: introspection and migration application issue
their catalog queries over a bounded connection pool; the generate/migrate
modules are not under src, so their pool acquisition is modelled as a call
to `get_pool`, the repository's only pool constructor. -/
def introspectionPool (database_url : String) : PgPool := get_pool database_url

/-- The argument ids `build_app` declares for the generate subcommand
(src/main.rs lines 264-275). -/
def generateArgIds : List String := [DATABASE, MODELS, MIGRATIONS, CONTEXT, SCHEMA, TABLE, FORCE]

/-- The argument ids `build_app` declares for the migrate subcommand
(src/main.rs lines 277-290) — there is no force argument. -/
def migrateArgIds : List String := [DATABASE, MODELS, MIGRATIONS, SCHEMA, TABLE]

/-- Migration-workflow failure: a risky operation without force. -/
inductive MigrateError where
  | riskyOperation
deriving DecidableEq

/-- Modelled from the spec: the migrate workflow computes the diff and, when
it contains a risky operation (non-nullable column addition without a
default, or any DropTable), aborts before producing output unless an
explicit force acknowledgment was given by the caller. -/
def migrateCore (actual desired : Schema) (force : Bool) :
    Except MigrateError (List DDLOperation) :=
  let ops := actual.diff desired
  if ops.any DDLOperation.isRisky && !force then .error .riskyOperation else .ok ops

/-- Embedding of the call shape of `migrate::migrate` as invoked from
src/main.rs lines 177-190: it receives the models folder, the migrations
output folder, the database url and the filters — and no force flag — so
the spec-modelled gating inside the module can only ever run with
`force = false`. -/
def migrateModuleMigrate (models migrationsFolder database_url : String)
    (actual desired : Schema) : Except MigrateError (List DDLOperation) :=
  migrateCore actual desired false

/-- Embedding of `migrate` from src/main.rs lines 170-191: forwards
everything except `options.force` into the migrate module. -/
def migrateEntry (opts : Options) (actual desired : Schema) :
    Except MigrateError (List DDLOperation) :=
  migrateModuleMigrate opts.models (opts.migrations.getD DEFAULT_MIGRATIONS_FOLDER)
    opts.database_url actual desired

/-- Rust `Option::unwrap`, modelled as a fallible projection. -/
def optionUnwrap {α : Type} : Option α → Except String α
  | some v => .ok v
  | none => .error "called Option::unwrap on a None value"

/-- Embedding of the migration-runner step of `generate` in src/main.rs
lines 123-125: the unwrap of `options.migrations` runs only under the guard
`options.is_docker || options.migrations.is_some()`. -/
def generateMigratorStep (opts : Options) : Except String (Option String) :=
  if opts.is_docker || opts.migrations.isSome then
    match optionUnwrap opts.migrations with
    | .error e => .error e
    | .ok v => .ok (some v)
  else .ok none

/-- Embedding of the unconditional unwrap of `options.migrations` in
`migrate`, src/main.rs line 179. -/
def migrateUnwrapStep (opts : Options) : Except String String :=
  optionUnwrap opts.migrations

/-- Decidable equality for `Except`, used to evaluate concrete runs. -/
instance {ε α : Type} [DecidableEq ε] [DecidableEq α] : DecidableEq (Except ε α) := fun a b =>
  match a, b with
  | .ok x, .ok y =>
    if h : x = y then isTrue (by rw [h]) else isFalse (by intro hc; cases hc; exact h rfl)
  | .error x, .error y =>
    if h : x = y then isTrue (by rw [h]) else isFalse (by intro hc; cases hc; exact h rfl)
  | .ok _, .error _ => isFalse (by intro hc; cases hc)
  | .error _, .ok _ => isFalse (by intro hc; cases hc)

/-! ### Concrete sample snapshots used by the witnesses -/

def tyInteger : TypeDesc := ⟨"integer", none, none⟩

def tyText : TypeDesc := ⟨"text", none, none⟩

def tyTimestamp : TypeDesc := ⟨"timestamp", none, none⟩

def kUsers : TableKey := ⟨"public", "users"⟩

def kSessions : TableKey := ⟨"public", "sessions"⟩

def kAudits : TableKey := ⟨"public", "audits"⟩

def tUsers : Table :=
  { key := kUsers
  , columns :=
      [⟨"id", tyInteger, false, none, 1⟩, ⟨"email", tyText, false, none, 2⟩]
  , constraints := [⟨"users_pkey", .primaryKey ["id"]⟩]
  , indexes := [] }

def tSessions : Table :=
  { key := kSessions
  , columns := [⟨"id", tyInteger, false, none, 1⟩]
  , constraints := [⟨"sessions_pkey", .primaryKey ["id"]⟩]
  , indexes := [] }

def tAudits : Table :=
  { key := kAudits
  , columns :=
      [⟨"id", tyInteger, false, none, 1⟩, ⟨"session_id", tyInteger, true, none, 2⟩]
  , constraints :=
      [⟨"audits_pkey", .primaryKey ["id"]⟩,
       ⟨"audits_session_id_fkey",
        .foreignKey ["session_id"] kSessions ["id"] .noAction .noAction⟩]
  , indexes := [] }

/-- Sample actual snapshot: users, sessions, audits (audits references
sessions through a foreign key). -/
def sampleA : Schema := ⟨[tUsers, tSessions, tAudits]⟩

def tUsersB : Table :=
  { key := kUsers
  , columns :=
      [⟨"id", tyInteger, false, none, 1⟩, ⟨"email", tyText, false, none, 2⟩,
       ⟨"created_at", tyTimestamp, true, none, 3⟩]
  , constraints := [⟨"users_pkey", .primaryKey ["id"]⟩]
  , indexes := [] }

def tAuditsB : Table :=
  { key := kAudits
  , columns := [⟨"id", tyInteger, false, none, 1⟩]
  , constraints := [⟨"audits_pkey", .primaryKey ["id"]⟩]
  , indexes := [] }

/-- Sample desired snapshot: drops the sessions table (and the audits
foreign key plus its column), adds a nullable column to users. -/
def sampleB : Schema := ⟨[tUsersB, tAuditsB]⟩

def tUsersRisky : Table :=
  { key := kUsers
  , columns :=
      [⟨"id", tyInteger, false, none, 1⟩, ⟨"email", tyText, false, none, 2⟩,
       ⟨"status", tyText, false, none, 3⟩]
  , constraints := [⟨"users_pkey", .primaryKey ["id"]⟩]
  , indexes := [] }

/-- Sample desired snapshot whose diff against `sampleA` contains a risky
operation: `status text not null` added with no default. -/
def sampleRisky : Schema := ⟨[tUsersRisky, tSessions, tAudits]⟩

/-- An options record with force set, as used to exercise the migrate
entry point. -/
def optsForced : Options :=
  { is_docker := false, models := "src/models/", migrations := some "migrations/",
    context := none, database_url := "postgres://localhost/db", schemas := none,
    tables := none, force := true }

/-- Concrete matches: database argument absent, models argument present. -/
def argsNoDb : ArgMatches :=
  ⟨fun k => if k = MODELS then some "src/models/" else none, fun _ => none, fun _ => false⟩

/-- Concrete environment with DATABASE_URL set. -/
def envWithDb : Env :=
  ⟨fun k => if k = ENV_DATABASE_URL then some "postgres://localhost/db" else none⟩

/-- Concrete matches: database and models arguments present, migrations
absent. -/
def argsDb : ArgMatches :=
  ⟨fun k =>
    if k = MODELS then some "src/models/"
    else if k = DATABASE then some "postgres://localhost/db"
    else none,
   fun _ => none, fun _ => false⟩

/-- Empty environment. -/
def envEmpty : Env := ⟨fun _ => none⟩

/-- The options the migrate subcommand produces from `argsDb`/`envEmpty`. -/
def optsMigrate : Options :=
  { is_docker := false, models := "src/models/",
    migrations := some DEFAULT_MIGRATIONS_FOLDER, context := none,
    database_url := "postgres://localhost/db", schemas := none,
    tables := none, force := false }

/-- The options the generate subcommand produces from `argsDb`/`envEmpty`. -/
def optsGenerate : Options :=
  { is_docker := false, models := "src/models/", migrations := none,
    context := none, database_url := "postgres://localhost/db",
    schemas := none, tables := none, force := false }

/-- The units the synthesizer produces for the sample snapshot. -/
def sampleUnits : List GeneratedUnit :=
  match synthesize sampleA with
  | .ok us => us
  | .error _ => []

instance (t : Table) : Decidable t.wf := by
  unfold Table.wf
  infer_instance

instance (s : Schema) : Decidable s.fkTableValid := by
  unfold Schema.fkTableValid
  infer_instance

instance (s : Schema) : Decidable s.WellFormed := by
  unfold Schema.WellFormed
  infer_instance

/-! ### Derived notions used by the diff-engine proofs -/

/-- The keys of a snapshot's tables, in order. -/
def keysOf (s : Schema) : List TableKey := s.tables.map (fun t => t.key)

/-- The composite per-table effect of a list of modify operations. -/
def applyT (l : List DDLOperation) (t : Table) : Table :=
  l.foldl (fun t op => modFn op t) t

/-- All operations in the list rewrite the table with key `κ` in place. -/
def opsModifyKeyed (κ : TableKey) (l : List DDLOperation) : Prop :=
  ∀ op ∈ l, isModify op = true ∧ opKey op = κ

def isAlter : DDLOperation → Bool
  | .alterColumnType _ _ _ => true
  | .alterColumnNullability _ _ _ => true
  | _ => false

/-- The column name an alter operation targets. -/
def alterColName : DDLOperation → String
  | .alterColumnType _ n _ => n
  | .alterColumnNullability _ n _ => n
  | _ => ""

/-- Effect of a single alter operation on one column. -/
def colUpd : DDLOperation → Column → Column
  | .alterColumnType _ n ty => fun c => if c.name = n then { c with ty := ty } else c
  | .alterColumnNullability _ n nb => fun c => if c.name = n then { c with nullable := nb } else c
  | _ => fun c => c

/-- Net effect of a list of alter operations on one column. -/
def netFold (l : List DDLOperation) (c : Column) : Column :=
  l.foldl (fun x op => colUpd op x) c

/-- Net effect of all alters of a table pair on one column. -/
def netColUpd (a b : Table) (c : Column) : Column :=
  netFold (columnAlters a b) c

/-- Constraints of `a` that survive the diff against `b`. -/
def keptConstraints (a b : Table) : List Constraint :=
  a.constraints.filter (keptBy (fun c => c.name) b.constraints)

/-- Constraints of `b` the diff adds. -/
def addedConstraints (a b : Table) : List Constraint :=
  b.constraints.filter (fun c => !(keptBy (fun c => c.name) a.constraints c))

/-- Indexes of `a` that survive the diff against `b`. -/
def keptIndexes (a b : Table) : List Index :=
  a.indexes.filter (keptBy (fun i => i.name) b.indexes)

/-- Indexes of `b` the diff creates. -/
def addedIndexes (a b : Table) : List Index :=
  b.indexes.filter (fun i => !(keptBy (fun i => i.name) a.indexes i))

/-- Columns of `a` that survive the diff against `b`. -/
def keptColumns (a b : Table) : List Column :=
  a.columns.filter (columnKept b)

/-- Columns of `b` the diff adds. -/
def addedColumns (a b : Table) : List Column :=
  b.columns.filter (fun c => !(columnKept a c))

/-- The table the diff/apply pipeline produces for a key present in both
snapshots. -/
def mergeTables (a b : Table) : Table :=
  { key := a.key
  , columns := (keptColumns a b ++ addedColumns a b).map (netColUpd a b)
  , constraints := keptConstraints a b ++ addedConstraints a b
  , indexes := keptIndexes a b ++ addedIndexes a b }

/-- The table the diff/apply pipeline produces for a newly created key. -/
def createMergedTable (bt : Table) : Table :=
  { bt with constraints := bt.constraints.filter (fun c => !(c.isFK)) ++ tableFKs bt }

/-- The in-both table after phase 1 (constraint/index drops). -/
def stage1Table (a b : Table) : Table :=
  { a with constraints := keptConstraints a b, indexes := keptIndexes a b }

/-- The in-both table after phase 2 (column drops). -/
def stage2Table (a b : Table) : Table :=
  { stage1Table a b with columns := keptColumns a b }

/-- The in-both table after phase 5 (column adds and alters). -/
def stage5Table (a b : Table) : Table :=
  { stage2Table a b with columns := (keptColumns a b ++ addedColumns a b).map (netColUpd a b) }

/-- The snapshot after phase 1 of the diff. -/
def stage1 (A B : Schema) : Schema := A.apply (phaseConstraintIndexDrops A B)

/-- The snapshot after phase 2. -/
def stage2 (A B : Schema) : Schema := (stage1 A B).apply (phaseColumnDrops A B)

/-- The snapshot after phase 3. -/
def stage3 (A B : Schema) : Schema := (stage2 A B).apply (phaseTableDrops A B)

/-- The snapshot after phase 4. -/
def stage4 (A B : Schema) : Schema := (stage3 A B).apply (phaseTableCreates A B)

/-- The snapshot after phase 5. -/
def stage5 (A B : Schema) : Schema := (stage4 A B).apply (phaseColumnAddsAlters A B)

/-- The snapshot after phase 6 — the end state of the whole diff. -/
def stage6 (A B : Schema) : Schema := (stage5 A B).apply (phaseConstraintIndexAdds A B)

/-- The per-table agreement under which the diff engine emits nothing: same
column names with equal type/nullability, identical constraint and index
sets keyed by name. -/
def TableMatches (x b : Table) : Prop :=
  (∀ c ∈ x.columns, ((b.columns.find? (fun d => d.name == c.name)).isSome = true)) ∧
  (∀ c ∈ b.columns, ∃ c0, x.columns.find? (fun d => d.name == c.name) = some c0 ∧
     c0.ty = c.ty ∧ c0.nullable = c.nullable) ∧
  (∀ c ∈ x.constraints, b.constraints.find? (fun d => d.name == c.name) = some c) ∧
  (∀ c ∈ b.constraints, x.constraints.find? (fun d => d.name == c.name) = some c) ∧
  (∀ i ∈ x.indexes, b.indexes.find? (fun d => d.name == i.name) = some i) ∧
  (∀ i ∈ b.indexes, x.indexes.find? (fun d => d.name == i.name) = some i)

/-- Every constraint of the state is declared identically, at the same table
key, in the desired snapshot `B`. -/
def constraintsDeclaredIn (B s : Schema) : Prop :=
  ∀ t ∈ s.tables, ∀ c ∈ t.constraints, ∃ bt ∈ B.tables, bt.key = t.key ∧ c ∈ bt.constraints

/-- Every table key of `B` already resolves in the state. -/
def keysPresentIn (B s : Schema) : Prop :=
  ∀ k, (B.lookup k).isSome = true → (s.lookup k).isSome = true

/-! ## Theorems -/

/-- Unfolds the embedded Rust `Option::ok_or_else`/`Result::expect` chain. -/
theorem resultExpect_okOrElse {α ε : Type} (o : Option α) (f : Unit → ε) (msg : String) :
    resultExpect (optionOkOrElse o f) msg =
      match o with
      | some v => .ok v
      | none => .error msg := by
  cases o <;> rfl

/-! ### C8 — bounded connection pool -/

/-- C8: every pool the program constructs goes through `get_pool`, which is
built with `PgPoolOptions::new().max_connections(5)` — a fixed upper bound
of 5 concurrent connections — and the introspection pool is exactly that
pool. -/
theorem get_pool_bounded (database_url : String) :
    (get_pool database_url).options.maxConnections = 5 ∧
    introspectionPool database_url = get_pool database_url :=
  ⟨rfl, rfl⟩

/-! ### C9 — the DATABASE_URL environment fallback is unreachable -/

/-- C9: whenever the CLI database argument is absent, `get_options` panics
with "Must provide either a database uri or `docker`" even when the
DATABASE_URL environment variable is set — the `env::var` call inside
`ok_or_else` only builds the error value and can never supply the URL. -/
theorem get_options_env_fallback_unreachable
    (subcommand ms url : String) (m : ArgMatches) (env : Env)
    (hm : m.value MODELS = some ms)
    (hd : m.value DATABASE = none)
    (he : env.var ENV_DATABASE_URL = some url) :
    get_options subcommand m env =
      .error "Must provide either a database uri or `docker`" := by
  unfold get_options
  rw [resultExpect_okOrElse, resultExpect_okOrElse, hm, hd]

/-- C9 witness: a concrete invocation with the database argument absent and
DATABASE_URL present in the environment still panics with the database
message. -/
theorem get_options_env_fallback_unreachable_witness :
    argsNoDb.value MODELS = some "src/models/" ∧
    argsNoDb.value DATABASE = none ∧
    envWithDb.var ENV_DATABASE_URL = some "postgres://localhost/db" ∧
    get_options GENERATE argsNoDb envWithDb =
      .error "Must provide either a database uri or `docker`" :=
  ⟨by decide, by decide, by decide,
   get_options_env_fallback_unreachable GENERATE "src/models/"
     "postgres://localhost/db" argsNoDb envWithDb (by decide) (by decide) (by decide)⟩

/-! ### C10 — the unwraps of `options.migrations` never panic -/

/-- C10: `options.migrations` is `Some` whenever it is unwrapped — for the
migrate subcommand a missing migrations argument is defaulted to
"migrations/", and for generate with a docker database `get_options` panics
earlier when no migrations folder was given — so the `.unwrap()` calls on
`options.migrations` in `generate` and `migrate` never panic. -/
theorem migrations_unwrap_never_panics
    (m m2 : ArgMatches) (env env2 : Env) (opts opts2 : Options)
    (h1 : get_options MIGRATE m env = .ok opts)
    (h2 : get_options GENERATE m2 env2 = .ok opts2) :
    (∃ v, migrateUnwrapStep opts = .ok v) ∧
    (∃ v, generateMigratorStep opts2 = .ok v) := by
  constructor
  · unfold get_options at h1
    rw [resultExpect_okOrElse, resultExpect_okOrElse] at h1
    rcases hM : m.value MODELS with _ | ms <;> rw [hM] at h1
    · cases h1
    rcases hD : m.value DATABASE with _ | url <;> rw [hD] at h1
    · cases h1
    rcases hMig : m.value MIGRATIONS with _ | mig <;> rw [hMig] at h1 <;>
      simp only [Option.isNone_none, Option.isNone_some, if_true, if_false, ite_true,
        ite_false, beq_self_eq_true, reduceIte] at h1
    · cases h1
      exact ⟨DEFAULT_MIGRATIONS_FOLDER, rfl⟩
    · cases h1
      exact ⟨mig, rfl⟩
  · unfold get_options at h2
    rw [resultExpect_okOrElse, resultExpect_okOrElse] at h2
    rcases hM : m2.value MODELS with _ | ms <;> rw [hM] at h2
    · cases h2
    rcases hD : m2.value DATABASE with _ | url <;> rw [hD] at h2
    · cases h2
    rcases hMig : m2.value MIGRATIONS with _ | mig <;> rw [hMig] at h2
    · have hsub : (GENERATE == MIGRATE) = false := by decide
      rw [hsub] at h2
      simp only [Option.isNone_none, if_true, if_false, ite_true, ite_false,
        Bool.false_eq_true, reduceIte] at h2
      rcases hdock : (url == DOCKER) with _ | _ <;> rw [hdock] at h2
      · cases h2
        refine ⟨none, ?_⟩
        simp [generateMigratorStep, hdock]
      · cases h2
    · simp only [Option.isNone_some, Bool.false_eq_true, reduceIte] at h2
      cases h2
      refine ⟨some mig, ?_⟩
      simp [generateMigratorStep, optionUnwrap]

/-- C10 witness: a concrete invocation of both subcommands where the
resulting options make both unwrap sites succeed. -/
theorem migrations_unwrap_never_panics_witness :
    get_options MIGRATE argsDb envEmpty = .ok optsMigrate ∧
    get_options GENERATE argsDb envEmpty = .ok optsGenerate ∧
    (∃ v, migrateUnwrapStep optsMigrate = .ok v) ∧
    (∃ v, generateMigratorStep optsGenerate = .ok v) :=
  ⟨by decide, by decide,
   migrations_unwrap_never_panics argsDb argsDb envEmpty envEmpty optsMigrate optsGenerate
     (by decide) (by decide)⟩

/-! ### C5 — risky-operation gating -/

/-- C5 counterexample: the claim "with force set, the operation is still
emitted" fails on this program — the migrate subcommand declares no force
argument and `migrate` in main.rs never forwards `options.force` into the
migrate module, so a risky diff aborts even with force set in the options. -/
theorem risky_force_counterexample :
    optsForced.force = true ∧
    (FORCE ∈ migrateArgIds → False) ∧
    (sampleA.diff sampleRisky).any DDLOperation.isRisky = true ∧
    migrateEntry optsForced sampleA sampleRisky = .error .riskyOperation :=
  ⟨rfl, by decide, by decide, by decide⟩

/-- C5 amended: whenever the diff contains a non-nullable column addition
without a default or any DropTable, the run aborts before producing output;
the spec-modelled core honors a force acknowledgment (with force set the
operation list, risky operations included, is emitted), but the program's
migrate path always invokes the core without force, so from the CLI the
abort is unconditional. -/
theorem risky_gating (actual desired : Schema)
    (h : (actual.diff desired).any DDLOperation.isRisky = true) :
    migrateCore actual desired false = .error .riskyOperation ∧
    migrateCore actual desired true = .ok (actual.diff desired) ∧
    ∀ opts : Options, migrateEntry opts actual desired = migrateCore actual desired false := by
  refine ⟨?_, ?_, fun _ => rfl⟩
  · simp [migrateCore, h]
  · simp [migrateCore]

/-- C5 witness: the spec's own example — `status text not null` added with
no default — flags a risky operation and gates as described. -/
theorem risky_gating_witness :
    (sampleA.diff sampleRisky).any DDLOperation.isRisky = true ∧
    (migrateCore sampleA sampleRisky false = .error .riskyOperation ∧
     migrateCore sampleA sampleRisky true = .ok (sampleA.diff sampleRisky) ∧
     ∀ opts : Options, migrateEntry opts sampleA sampleRisky =
       migrateCore sampleA sampleRisky false) :=
  ⟨by decide, risky_gating sampleA sampleRisky (by decide)⟩

/-! ### List and locality toolkit -/

theorem apply_append (s : Schema) (l₁ l₂ : List DDLOperation) :
    s.apply (l₁ ++ l₂) = (s.apply l₁).apply l₂ :=
  List.foldl_append _ _ _ _

theorem applyT_append (l₁ l₂ : List DDLOperation) (t : Table) :
    applyT (l₁ ++ l₂) t = applyT l₂ (applyT l₁ t) :=
  List.foldl_append _ _ _ _

theorem modFn_key (op : DDLOperation) (t : Table) : (modFn op t).key = t.key := by
  cases op <;> rfl

theorem applyT_key (l : List DDLOperation) (t : Table) : (applyT l t).key = t.key := by
  induction l generalizing t with
  | nil => rfl
  | cons op l ih => exact (ih (modFn op t)).trans (modFn_key op t)

theorem fn_inj_of_pairwise {α β : Type} (f : α → β) {l : List α}
    (h : l.Pairwise (fun u v => f u ≠ f v)) {x y : α} (hx : x ∈ l) (hy : y ∈ l)
    (hf : f x = f y) : x = y := by
  induction l with
  | nil => cases hx
  | cons a l ih =>
    have hp := List.pairwise_cons.mp h
    rcases List.mem_cons.mp hx with rfl | hx₂ <;> rcases List.mem_cons.mp hy with rfl | hy₂
    · rfl
    · exact absurd hf (hp.1 y hy₂)
    · exact absurd hf.symm (hp.1 x hx₂)
    · exact ih hp.2 hx₂ hy₂

theorem find?_fn_self {α β : Type} [DecidableEq β] (f : α → β) {l : List α} {x : α}
    (h : l.Pairwise (fun u v => f u ≠ f v)) (hx : x ∈ l) :
    l.find? (fun y => f y == f x) = some x := by
  induction l with
  | nil => cases hx
  | cons a l ih =>
    have hp := List.pairwise_cons.mp h
    rcases List.mem_cons.mp hx with rfl | hx₂
    · exact List.find?_cons_of_pos _ (by simp)
    · have ha : f a ≠ f x := hp.1 x hx₂
      rw [List.find?_cons_of_neg _ (by simpa using ha)]
      exact ih hp.2 hx₂

theorem find?_isSome_mem {α : Type} {p : α → Bool} {l : List α} {x : α}
    (hx : x ∈ l) (hp : p x = true) : (l.find? p).isSome = true := by
  induction l with
  | nil => cases hx
  | cons a l ih =>
    rcases List.mem_cons.mp hx with rfl | hx₂
    · rw [List.find?_cons_of_pos _ hp]; rfl
    · cases hpa : p a
      · rw [List.find?_cons_of_neg _ (by simp [hpa])]
        exact ih hx₂
      · rw [List.find?_cons_of_pos _ hpa]; rfl

theorem find?_map_keyed {α β : Type} [DecidableEq β] (f : α → α) (nm : α → β)
    (hf : ∀ x, nm (f x) = nm x) (l : List α) (s : β) :
    (l.map f).find? (fun d => nm d == s) = (l.find? (fun d => nm d == s)).map f := by
  induction l with
  | nil => rfl
  | cons a l ih =>
    by_cases h : nm a = s
    · rw [List.map_cons, List.find?_cons_of_pos _ (by simp [hf, h]),
        List.find?_cons_of_pos _ (by simp [h])]
      rfl
    · rw [List.map_cons, List.find?_cons_of_neg _ (by simp [hf, h]),
        List.find?_cons_of_neg _ (by simp [h])]
      exact ih

theorem find?_key_map_ite (ts : List Table) (k j : TableKey) (f : Table → Table)
    (hf : ∀ t, (f t).key = t.key) :
    (ts.map (fun t => if t.key = k then f t else t)).find? (fun t => t.key == j) =
      if j = k then (ts.find? (fun t => t.key == j)).map f
      else ts.find? (fun t => t.key == j) := by
  induction ts with
  | nil => simp
  | cons t ts ih =>
    have hkey : (if t.key = k then f t else t).key = t.key := by
      by_cases h : t.key = k <;> simp [h, hf]
    by_cases htj : t.key = j
    · rw [List.map_cons, List.find?_cons_of_pos _ (by rw [hkey]; simp [htj]),
        List.find?_cons_of_pos _ (by simp [htj])]
      by_cases hjk : j = k
      · rw [if_pos hjk, if_pos (htj.trans hjk)]
        rfl
      · rw [if_neg hjk, if_neg (fun hc : t.key = k => hjk (htj.symm.trans hc))]
    · rw [List.map_cons, List.find?_cons_of_neg _ (by rw [hkey]; simp [htj]),
        List.find?_cons_of_neg _ (by simp [htj])]
      exact ih

theorem lookup_modifyTable (s : Schema) (k j : TableKey) (f : Table → Table)
    (hf : ∀ t, (f t).key = t.key) :
    (s.modifyTable k f).lookup j =
      if j = k then (s.lookup j).map f else s.lookup j :=
  find?_key_map_ite s.tables k j f hf

theorem keysOf_modifyTable (s : Schema) (k : TableKey) (f : Table → Table)
    (hf : ∀ t, (f t).key = t.key) :
    keysOf (s.modifyTable k f) = keysOf s := by
  rcases s with ⟨ts⟩
  induction ts with
  | nil => rfl
  | cons t ts ih =>
    simp only [keysOf, Schema.modifyTable, List.map_cons] at ih ⊢
    refine congrArg₂ _ ?_ ih
    by_cases h : t.key = k <;> simp [h, hf]

theorem lookup_applyOp_dropTable (s : Schema) (κ j : TableKey) :
    (applyOp s (.dropTable κ)).lookup j = if j = κ then none else s.lookup j := by
  rcases s with ⟨ts⟩
  induction ts with
  | nil => simp [applyOp, Schema.lookup]
  | cons t ts ih =>
    simp only [applyOp, Schema.lookup] at ih ⊢
    by_cases htκ : t.key = κ
    · rw [List.filter_cons_of_neg (by simp [htκ])]
      by_cases hjκ : j = κ
      · rw [if_pos hjκ] at ih ⊢
        exact ih
      · have htj : t.key ≠ j := by rw [htκ]; exact fun h => hjκ h.symm
        rw [if_neg hjκ] at ih ⊢
        rw [List.find?_cons_of_neg _ (by simp [htj])]
        exact ih
    · rw [List.filter_cons_of_pos (by simp [htκ])]
      by_cases htj : t.key = j
      · rw [List.find?_cons_of_pos _ (by simp [htj]),
          if_neg (fun h : j = κ => htκ (htj.trans h)),
          List.find?_cons_of_pos _ (by simp [htj])]
      · rw [List.find?_cons_of_neg _ (by simp [htj]), ih]
        by_cases hjκ : j = κ
        · rw [if_pos hjκ, if_pos hjκ]
        · rw [if_neg hjκ, if_neg hjκ, List.find?_cons_of_neg _ (by simp [htj])]

theorem keysOf_applyOp_dropTable (s : Schema) (κ : TableKey) :
    keysOf (applyOp s (.dropTable κ)) = (keysOf s).filter (fun k => !(k == κ)) := by
  rcases s with ⟨ts⟩
  induction ts with
  | nil => rfl
  | cons t ts ih =>
    simp only [applyOp, keysOf, List.map_cons] at ih ⊢
    by_cases htκ : t.key = κ
    · rw [List.filter_cons_of_neg (by simp [htκ]), List.filter_cons_of_neg (by simp [htκ])]
      exact ih
    · rw [List.filter_cons_of_pos (by simp [htκ]), List.map_cons,
        List.filter_cons_of_pos (by simp [htκ]), ih]

theorem lookup_applyOp_createTable (s : Schema) (nt : Table) (j : TableKey) :
    (applyOp s (.createTable nt)).lookup j =
      (s.lookup j).or (if nt.key = j then some nt else none) := by
  simp only [applyOp, Schema.lookup, List.find?_append]
  refine congrArg _ ?_
  by_cases h : nt.key = j
  · rw [List.find?_cons_of_pos _ (by simp [h]), if_pos h]
  · rw [List.find?_cons_of_neg _ (by simp [h]), if_neg h]
    rfl

theorem keysOf_applyOp_createTable (s : Schema) (nt : Table) :
    keysOf (applyOp s (.createTable nt)) = keysOf s ++ [nt.key] := by
  simp [applyOp, keysOf]

theorem applyOp_modify (s : Schema) (op : DDLOperation) (h : isModify op = true) :
    applyOp s op = s.modifyTable (opKey op) (modFn op) := by
  cases op <;> first | rfl | simp [isModify] at h

theorem lookup_apply_other (s : Schema) (l : List DDLOperation) (j : TableKey)
    (h : ∀ op ∈ l, opKey op ≠ j) : (s.apply l).lookup j = s.lookup j := by
  induction l generalizing s with
  | nil => rfl
  | cons op l ih =>
    have hop := h op (List.mem_cons_self _ _)
    have hrest : ∀ op ∈ l, opKey op ≠ j := fun o ho => h o (List.mem_cons_of_mem _ ho)
    have hstep : (applyOp s op).lookup j = s.lookup j := by
      cases hm : isModify op with
      | true =>
        rw [applyOp_modify s op hm, lookup_modifyTable _ _ _ _ (modFn_key op),
          if_neg (fun hc => hop hc.symm)]
      | false =>
        cases op with
        | createTable nt =>
          rw [lookup_applyOp_createTable, if_neg (fun hc : nt.key = j => hop hc),
            Option.or_none]
        | dropTable κ =>
          rw [lookup_applyOp_dropTable, if_neg (fun hc => hop hc.symm)]
        | addColumn k c => simp [isModify] at hm
        | dropColumn k c => simp [isModify] at hm
        | alterColumnType k c ty => simp [isModify] at hm
        | alterColumnNullability k c nb => simp [isModify] at hm
        | addConstraint k c => simp [isModify] at hm
        | dropConstraint k c => simp [isModify] at hm
        | createIndex k i => simp [isModify] at hm
        | dropIndex k i => simp [isModify] at hm
    exact (ih (applyOp s op) hrest).trans hstep

theorem lookup_apply_keyed (s : Schema) (l : List DDLOperation) (κ : TableKey)
    (h : opsModifyKeyed κ l) :
    (s.apply l).lookup κ = (s.lookup κ).map (applyT l) := by
  induction l generalizing s with
  | nil =>
    show s.lookup κ = (s.lookup κ).map (applyT [])
    cases s.lookup κ <;> rfl
  | cons op l ih =>
    have hop := h op (List.mem_cons_self _ _)
    have hrest : opsModifyKeyed κ l := fun o ho => h o (List.mem_cons_of_mem _ ho)
    have hstep : (applyOp s op).lookup κ = (s.lookup κ).map (modFn op) := by
      rw [applyOp_modify s op hop.1, hop.2, lookup_modifyTable _ _ _ _ (modFn_key op),
        if_pos rfl]
    calc (s.apply (op :: l)).lookup κ
        = ((applyOp s op).apply l).lookup κ := rfl
      _ = ((applyOp s op).lookup κ).map (applyT l) := ih _ hrest
      _ = ((s.lookup κ).map (modFn op)).map (applyT l) := by rw [hstep]
      _ = (s.lookup κ).map (applyT (op :: l)) := by cases s.lookup κ <;> rfl

theorem keysOf_applyOp_modify (s : Schema) (op : DDLOperation) (h : isModify op = true) :
    keysOf (applyOp s op) = keysOf s := by
  rw [applyOp_modify s op h]
  exact keysOf_modifyTable _ _ _ (modFn_key op)

theorem keysOf_apply_modify (s : Schema) (l : List DDLOperation)
    (h : ∀ op ∈ l, isModify op = true) : keysOf (s.apply l) = keysOf s := by
  induction l generalizing s with
  | nil => rfl
  | cons op l ih =>
    exact (ih _ (fun o ho => h o (List.mem_cons_of_mem _ ho))).trans
      (keysOf_applyOp_modify s op (h op (List.mem_cons_self _ _)))

theorem lookup_apply_flatMapKeyed_none {α : Type} (key : α → TableKey)
    (g : α → List DDLOperation) (l : List α) (s : Schema) (j : TableKey)
    (hg : ∀ x ∈ l, opsModifyKeyed (key x) (g x))
    (hnone : ∀ x ∈ l, key x ≠ j) :
    (s.apply (l.flatMap g)).lookup j = s.lookup j := by
  refine lookup_apply_other s _ j ?_
  intro op hop
  rcases List.mem_flatMap.mp hop with ⟨x, hx, hopx⟩
  rw [(hg x hx op hopx).2]
  exact hnone x hx

theorem lookup_apply_flatMapKeyed_mem {α : Type} (key : α → TableKey)
    (g : α → List DDLOperation) (l : List α) (s : Schema) {x : α} {j : TableKey}
    (hg : ∀ y ∈ l, opsModifyKeyed (key y) (g y))
    (hd : l.Pairwise (fun u v => key u ≠ key v))
    (hx : x ∈ l) (hxj : key x = j) :
    (s.apply (l.flatMap g)).lookup j = (s.lookup j).map (applyT (g x)) := by
  induction l generalizing s with
  | nil => cases hx
  | cons a l ih =>
    have hga := hg a (List.mem_cons_self _ _)
    have hgrest : ∀ y ∈ l, opsModifyKeyed (key y) (g y) :=
      fun y hy => hg y (List.mem_cons_of_mem _ hy)
    have hp := List.pairwise_cons.mp hd
    have happ : s.apply ((a :: l).flatMap g) = (s.apply (g a)).apply (l.flatMap g) := by
      rw [List.flatMap_cons, apply_append]
    rcases List.mem_cons.mp hx with rfl | hx₂
    · have hothers : ∀ op ∈ l.flatMap g, opKey op ≠ j := by
        intro op hop
        rcases List.mem_flatMap.mp hop with ⟨y, hy, hopy⟩
        rw [(hgrest y hy op hopy).2]
        exact fun hc => hp.1 y hy (hxj.trans hc.symm)
      rw [happ, lookup_apply_other _ _ _ hothers, ← hxj,
        lookup_apply_keyed s (g x) (key x) hga]
    · have haj : key a ≠ j := fun hc => hp.1 x hx₂ (hc.trans hxj.symm)
      have hsame : (s.apply (g a)).lookup j = s.lookup j :=
        lookup_apply_other _ _ _ (fun op hop => by rw [(hga op hop).2]; exact haj)
      rw [happ, ih _ hgrest hp.2 hx₂, hsame]

theorem lookup_isSome_iff (s : Schema) (k : TableKey) :
    (s.lookup k).isSome = true ↔ k ∈ keysOf s := by
  rcases s with ⟨ts⟩
  induction ts with
  | nil => simp [Schema.lookup, keysOf]
  | cons t ts ih =>
    by_cases h : t.key = k
    · rw [Schema.lookup, List.find?_cons_of_pos _ (by simp [h])]
      simp [keysOf, h]
    · rw [Schema.lookup, List.find?_cons_of_neg _ (by simp [h])]
      rw [Schema.lookup] at ih
      simp only [keysOf, List.map_cons, List.mem_cons] at ih ⊢
      constructor
      · intro hs
        exact Or.inr (ih.mp hs)
      · rintro (hc | hm)
        · exact absurd hc.symm h
        · exact ih.mpr hm

theorem lookup_mem {s : Schema} {k : TableKey} {t : Table} (h : s.lookup k = some t) :
    t ∈ s.tables ∧ t.key = k :=
  ⟨List.mem_of_find?_eq_some h, by have := List.find?_some h; simpa using this⟩

theorem mem_lookup_self (s : Schema) (hk : (keysOf s).Pairwise (fun a b => a ≠ b))
    {t : Table} (ht : t ∈ s.tables) : s.lookup t.key = some t := by
  show s.tables.find? (fun u => u.key == t.key) = some t
  exact find?_fn_self (fun u : Table => u.key) (List.pairwise_map.mp hk) ht

theorem mem_inBothPairs {A B : Schema} {ab : Table × Table} :
    ab ∈ inBothPairs A B ↔ ab.1 ∈ A.tables ∧ B.lookup ab.1.key = some ab.2 := by
  rcases ab with ⟨a, b⟩
  simp only [inBothPairs, List.mem_filterMap]
  constructor
  · rintro ⟨x, hx, hmap⟩
    rcases Option.map_eq_some'.mp hmap with ⟨y, hy, heq⟩
    cases heq
    exact ⟨hx, hy⟩
  · rintro ⟨ha, hb⟩
    exact ⟨a, ha, by rw [hb]; rfl⟩

theorem inBothPairs_fst (A B : Schema) :
    (inBothPairs A B).map Prod.fst = A.tables.filter (fun a => (B.lookup a.key).isSome) := by
  rcases A with ⟨ts⟩
  induction ts with
  | nil => rfl
  | cons t ts ih =>
    simp only [inBothPairs] at ih ⊢
    cases hb : (B.lookup t.key) with
    | none =>
      rw [List.filterMap_cons]
      simp [hb, ih]
    | some b =>
      rw [List.filterMap_cons]
      simp [hb, ih]

theorem inBothPairs_keys_pairwise {A : Schema} (B : Schema)
    (hA : (keysOf A).Pairwise (fun a b => a ≠ b)) :
    (inBothPairs A B).Pairwise (fun u v => u.1.key ≠ v.1.key) := by
  have h1 : A.tables.Pairwise (fun u v => u.key ≠ v.key) := List.pairwise_map.mp hA
  have h2 : (A.tables.filter (fun a => (B.lookup a.key).isSome)).Pairwise
      (fun u v => u.key ≠ v.key) :=
    List.Pairwise.sublist (List.filter_sublist A.tables) h1
  have h3 : ((inBothPairs A B).map Prod.fst).Pairwise (fun u v => u.key ≠ v.key) := by
    rw [inBothPairs_fst A B]
    exact h2
  have h4 := List.pairwise_map.mp h3
  exact h4

theorem pickNext_mem {placed : List TableKey} {remaining : List Table} {t : Table}
    (h : pickNext placed remaining = some t) : t ∈ remaining := by
  unfold pickNext at h
  cases hf : (sortedTables remaining).find?
      (eligibleTable placed (remaining.map (fun u => u.key))) with
  | some x =>
    rw [hf] at h
    cases h
    exact ((List.perm_insertionSort tableLe remaining).mem_iff).mp
      (List.mem_of_find?_eq_some hf)
  | none =>
    rw [hf] at h
    cases hs : sortedTables remaining with
    | nil => rw [hs] at h; cases h
    | cons s rest =>
      rw [hs] at h
      cases h
      refine ((List.perm_insertionSort tableLe remaining).mem_iff).mp ?_
      show t ∈ sortedTables remaining
      rw [hs]
      exact List.mem_cons_self _ _

theorem pickNext_none {placed : List TableKey} {remaining : List Table}
    (h : pickNext placed remaining = none) : remaining = [] := by
  unfold pickNext at h
  cases hf : (sortedTables remaining).find?
      (eligibleTable placed (remaining.map (fun u => u.key))) with
  | some x => rw [hf] at h; cases h
  | none =>
    rw [hf] at h
    cases hs : sortedTables remaining with
    | cons s rest => rw [hs] at h; cases h
    | nil =>
      have hp : ([] : List Table).Perm remaining := by
        rw [← hs]
        exact List.perm_insertionSort tableLe remaining
      exact (hp.symm).eq_nil

theorem depOrderAux_perm (n : Nat) (placed : List TableKey) (remaining : List Table)
    (h : remaining.length ≤ n) : (depOrderAux n placed remaining).Perm remaining := by
  induction n generalizing placed remaining with
  | zero =>
    have he : remaining = [] := List.length_eq_zero.mp (Nat.le_zero.mp h)
    subst he
    exact List.Perm.refl _
  | succ n ih =>
    cases hp : pickNext placed remaining with
    | none =>
      have he : remaining = [] := pickNext_none hp
      subst he
      simp [depOrderAux, hp]
    | some nxt =>
      have hmem : nxt ∈ remaining := pickNext_mem hp
      have hpos : 0 < remaining.length :=
        List.length_pos.mpr (List.ne_nil_of_mem hmem)
      have hlen : (remaining.erase nxt).length ≤ n := by
        rw [List.length_erase, if_pos hmem]
        omega
      have hperm := ih (nxt.key :: placed) (remaining.erase nxt) hlen
      have h1 : depOrderAux (n + 1) placed remaining
          = nxt :: depOrderAux n (nxt.key :: placed) (remaining.erase nxt) := by
        simp [depOrderAux, hp]
      rw [h1]
      exact List.Perm.trans (hperm.cons nxt) (List.perm_cons_erase hmem).symm

theorem depOrder_perm (l : List Table) : (depOrder l).Perm l :=
  depOrderAux_perm _ _ _ le_rfl

theorem depOrder_nil : depOrder [] = [] := rfl

/-! ### Computing per-table effects -/

theorem applyT_dropConstraints (κ : TableKey) (names : List String) (t : Table) :
    applyT (names.map (fun n => DDLOperation.dropConstraint κ n)) t =
      { t with constraints := t.constraints.filter (fun c => !(decide (c.name ∈ names))) } := by
  induction names generalizing t with
  | nil => simp [applyT]
  | cons n ns ih =>
    have h1 : applyT ((n :: ns).map (fun m => DDLOperation.dropConstraint κ m)) t
        = applyT (ns.map (fun m => DDLOperation.dropConstraint κ m))
            { t with constraints := t.constraints.filter (fun c => !(c.name == n)) } := rfl
    rw [h1, ih]
    simp only [List.filter_filter]
    congr 1
    apply List.filter_congr
    intro c _
    by_cases hn : c.name = n <;> by_cases hns : c.name ∈ ns <;> simp [hn, hns]

theorem applyT_dropIndexes (κ : TableKey) (names : List String) (t : Table) :
    applyT (names.map (fun n => DDLOperation.dropIndex κ n)) t =
      { t with indexes := t.indexes.filter (fun i => !(decide (i.name ∈ names))) } := by
  induction names generalizing t with
  | nil => simp [applyT]
  | cons n ns ih =>
    have h1 : applyT ((n :: ns).map (fun m => DDLOperation.dropIndex κ m)) t
        = applyT (ns.map (fun m => DDLOperation.dropIndex κ m))
            { t with indexes := t.indexes.filter (fun i => !(i.name == n)) } := rfl
    rw [h1, ih]
    simp only [List.filter_filter]
    congr 1
    apply List.filter_congr
    intro i _
    by_cases hn : i.name = n <;> by_cases hns : i.name ∈ ns <;> simp [hn, hns]

theorem applyT_dropColumns (κ : TableKey) (names : List String) (t : Table) :
    applyT (names.map (fun n => DDLOperation.dropColumn κ n)) t =
      { t with columns := t.columns.filter (fun c => !(decide (c.name ∈ names))) } := by
  induction names generalizing t with
  | nil => simp [applyT]
  | cons n ns ih =>
    have h1 : applyT ((n :: ns).map (fun m => DDLOperation.dropColumn κ m)) t
        = applyT (ns.map (fun m => DDLOperation.dropColumn κ m))
            { t with columns := t.columns.filter (fun c => !(c.name == n)) } := rfl
    rw [h1, ih]
    simp only [List.filter_filter]
    congr 1
    apply List.filter_congr
    intro c _
    by_cases hn : c.name = n <;> by_cases hns : c.name ∈ ns <;> simp [hn, hns]

theorem applyT_addConstraints (κ : TableKey) (cs : List Constraint) (t : Table) :
    applyT (cs.map (fun c => DDLOperation.addConstraint κ c)) t =
      { t with constraints := t.constraints ++ cs } := by
  induction cs generalizing t with
  | nil => simp [applyT]
  | cons c cs ih =>
    have h1 : applyT ((c :: cs).map (fun d => DDLOperation.addConstraint κ d)) t
        = applyT (cs.map (fun d => DDLOperation.addConstraint κ d))
            { t with constraints := t.constraints ++ [c] } := rfl
    rw [h1, ih]
    simp

theorem applyT_addColumns (κ : TableKey) (cs : List Column) (t : Table) :
    applyT (cs.map (fun c => DDLOperation.addColumn κ c)) t =
      { t with columns := t.columns ++ cs } := by
  induction cs generalizing t with
  | nil => simp [applyT]
  | cons c cs ih =>
    have h1 : applyT ((c :: cs).map (fun d => DDLOperation.addColumn κ d)) t
        = applyT (cs.map (fun d => DDLOperation.addColumn κ d))
            { t with columns := t.columns ++ [c] } := rfl
    rw [h1, ih]
    simp

theorem applyT_addIndexes (κ : TableKey) (is : List Index) (t : Table) :
    applyT (is.map (fun i => DDLOperation.createIndex κ i)) t =
      { t with indexes := t.indexes ++ is } := by
  induction is generalizing t with
  | nil => simp [applyT]
  | cons i is ih =>
    have h1 : applyT ((i :: is).map (fun d => DDLOperation.createIndex κ d)) t
        = applyT (is.map (fun d => DDLOperation.createIndex κ d))
            { t with indexes := t.indexes ++ [i] } := rfl
    rw [h1, ih]
    simp

theorem applyT_alters (l : List DDLOperation) (h : ∀ op ∈ l, isAlter op = true) (t : Table) :
    applyT l t = { t with columns := t.columns.map (netFold l) } := by
  induction l generalizing t with
  | nil =>
    show t = { t with columns := t.columns.map (netFold []) }
    have h0 : netFold ([] : List DDLOperation) = fun c => c := rfl
    rw [h0, List.map_id']
  | cons op l ih =>
    have hop := h op (List.mem_cons_self _ _)
    have hrest : ∀ o ∈ l, isAlter o = true := fun o ho => h o (List.mem_cons_of_mem _ ho)
    have h1 : applyT (op :: l) t = applyT l (modFn op t) := rfl
    have h2 : modFn op t = { t with columns := t.columns.map (colUpd op) } := by
      cases op <;> first | rfl | simp [isAlter] at hop
    rw [h1, h2, ih hrest]
    simp only [List.map_map]
    rfl

/-! ### Merged named lists -/

theorem keptBy_mem {α : Type} [DecidableEq α] (nm : α → String) {bs : List α} {c : α}
    (h : keptBy nm bs c = true) :
    c ∈ bs ∧ bs.find? (fun d => nm d == nm c) = some c := by
  unfold keptBy at h
  cases hf : bs.find? (fun d => nm d == nm c) with
  | none => rw [hf] at h; cases h
  | some d =>
    rw [hf] at h
    have hd : d = c := by simpa using h
    subst hd
    exact ⟨List.mem_of_find?_eq_some hf, rfl⟩

theorem keptBy_of_uniq {α : Type} [DecidableEq α] (nm : α → String) {bs : List α} {c : α}
    (hu : bs.Pairwise (fun u v => nm u ≠ nm v)) (hc : c ∈ bs) : keptBy nm bs c = true := by
  unfold keptBy
  rw [find?_fn_self nm hu hc]
  simp

theorem merged_find_in_b {α : Type} [DecidableEq α] (nm : α → String)
    {as bs : List α} (hb : bs.Pairwise (fun u v => nm u ≠ nm v)) :
    ∀ c ∈ as.filter (keptBy nm bs) ++ bs.filter (fun c => !(keptBy nm as c)),
      bs.find? (fun d => nm d == nm c) = some c := by
  intro c hc
  rcases List.mem_append.mp hc with hk | hadd
  · exact (keptBy_mem nm (List.mem_filter.mp hk).2).2
  · exact find?_fn_self nm hb (List.mem_filter.mp hadd).1

theorem merged_find_self {α : Type} [DecidableEq α] (nm : α → String)
    {as bs : List α} (ha : as.Pairwise (fun u v => nm u ≠ nm v))
    (hb : bs.Pairwise (fun u v => nm u ≠ nm v)) :
    ∀ c ∈ bs,
      (as.filter (keptBy nm bs) ++ bs.filter (fun c => !(keptBy nm as c))).find?
        (fun d => nm d == nm c) = some c := by
  intro c hc
  rw [List.find?_append]
  by_cases hk : keptBy nm as c = true
  · rcases keptBy_mem nm hk with ⟨hmem, _⟩
    have hkb : keptBy nm bs c = true := keptBy_of_uniq nm hb hc
    have hfound : (as.filter (keptBy nm bs)).find? (fun d => nm d == nm c) = some c := by
      refine find?_fn_self nm (List.Pairwise.sublist (List.filter_sublist _) ha) ?_
      exact List.mem_filter.mpr ⟨hmem, hkb⟩
    rw [hfound]
    rfl
  · have hnone : (as.filter (keptBy nm bs)).find? (fun d => nm d == nm c) = none := by
      rw [List.find?_eq_none]
      intro d hd hdc
      have hdmem := (List.mem_filter.mp hd).1
      have hdkept := (List.mem_filter.mp hd).2
      have hnm : nm d = nm c := by simpa using hdc
      have hdf := (keptBy_mem nm hdkept).2
      have hcf : bs.find? (fun e => nm e == nm c) = some c := find?_fn_self nm hb hc
      rw [hnm, hcf] at hdf
      cases hdf
      exact absurd (keptBy_of_uniq nm ha hdmem) hk
    rw [hnone, Option.none_or]
    refine find?_fn_self nm (List.Pairwise.sublist (List.filter_sublist _) hb) ?_
    refine List.mem_filter.mpr ⟨hc, ?_⟩
    simp [Bool.not_eq_true] at hk
    simp [hk]

theorem filter_not_dropped {α : Type} [DecidableEq α] (nm : α → String) (p : α → Bool)
    (l : List α) (h : l.Pairwise (fun x y => nm x ≠ nm y)) :
    l.filter (fun c => !(decide (nm c ∈ (l.filter (fun d => !(p d))).map nm))) = l.filter p := by
  apply List.filter_congr
  intro c hc
  by_cases hp : p c = true
  · have hni : nm c ∉ (l.filter (fun d => !(p d))).map nm := by
      intro hmem
      rcases List.mem_map.mp hmem with ⟨d, hd, hnm⟩
      have hdl := (List.mem_filter.mp hd).1
      have hdp := (List.mem_filter.mp hd).2
      have hdc : d = c := fn_inj_of_pairwise nm h hdl hc hnm
      subst hdc
      rw [hp] at hdp
      cases hdp
    simp [hni, hp]
  · have hpf : p c = false := by
      cases hpc : p c with
      | true => exact absurd hpc hp
      | false => rfl
    have hin : nm c ∈ (l.filter (fun d => !(p d))).map nm :=
      List.mem_map.mpr ⟨c, List.mem_filter.mpr ⟨hc, by simp [hpf]⟩, rfl⟩
    simp [hin, hpf]

theorem find?_name_col {l : List Column} {c : Column}
    (h : l.Pairwise (fun u v => u.name ≠ v.name)) (hc : c ∈ l) :
    l.find? (fun d => d.name == c.name) = some c :=
  find?_fn_self (fun u : Column => u.name) h hc

theorem find?_name_constraint {l : List Constraint} {c : Constraint}
    (h : l.Pairwise (fun u v => u.name ≠ v.name)) (hc : c ∈ l) :
    l.find? (fun d => d.name == c.name) = some c :=
  find?_fn_self (fun u : Constraint => u.name) h hc

theorem find?_name_index {l : List Index} {c : Index}
    (h : l.Pairwise (fun u v => u.name ≠ v.name)) (hc : c ∈ l) :
    l.find? (fun d => d.name == c.name) = some c :=
  find?_fn_self (fun u : Index => u.name) h hc

/-! ### The diff of matching snapshots is empty -/

theorem constraintDrops_eq_nil {x bt : Table}
    (hm : ∀ c ∈ x.constraints, bt.constraints.find? (fun d => d.name == c.name) = some c) :
    constraintDrops x bt = [] := by
  unfold constraintDrops
  rw [List.filter_eq_nil_iff.mpr, List.map_nil]
  intro c hc
  simp [keptBy, hm c hc]

theorem constraintAdds_eq_nil {x bt : Table}
    (hm : ∀ c ∈ bt.constraints, x.constraints.find? (fun d => d.name == c.name) = some c) :
    constraintAdds x bt = [] := by
  unfold constraintAdds
  rw [List.filter_eq_nil_iff.mpr, List.map_nil]
  intro c hc
  simp [keptBy, hm c hc]

theorem indexDrops_eq_nil {x bt : Table}
    (hm : ∀ i ∈ x.indexes, bt.indexes.find? (fun d => d.name == i.name) = some i) :
    indexDrops x bt = [] := by
  unfold indexDrops
  rw [List.filter_eq_nil_iff.mpr, List.map_nil]
  intro i hi
  simp [keptBy, hm i hi]

theorem indexAdds_eq_nil {x bt : Table}
    (hm : ∀ i ∈ bt.indexes, x.indexes.find? (fun d => d.name == i.name) = some i) :
    indexAdds x bt = [] := by
  unfold indexAdds
  rw [List.filter_eq_nil_iff.mpr, List.map_nil]
  intro i hi
  simp [keptBy, hm i hi]

theorem columnDrops_eq_nil {x bt : Table}
    (hm : ∀ c ∈ x.columns, (bt.columns.find? (fun d => d.name == c.name)).isSome = true) :
    columnDrops x bt = [] := by
  unfold columnDrops
  rw [List.filter_eq_nil_iff.mpr, List.map_nil]
  intro c hc
  simp [columnKept, hm c hc]

theorem columnAdds_eq_nil {x bt : Table}
    (hm : ∀ c ∈ bt.columns, ∃ c0, x.columns.find? (fun d => d.name == c.name) = some c0 ∧
      c0.ty = c.ty ∧ c0.nullable = c.nullable) :
    columnAdds x bt = [] := by
  unfold columnAdds
  rw [List.filter_eq_nil_iff.mpr, List.map_nil]
  intro c hc
  rcases hm c hc with ⟨c0, hf, _, _⟩
  simp [columnKept, hf]

theorem columnAlters_eq_nil {x bt : Table}
    (hm : ∀ c ∈ bt.columns, ∃ c0, x.columns.find? (fun d => d.name == c.name) = some c0 ∧
      c0.ty = c.ty ∧ c0.nullable = c.nullable) :
    columnAlters x bt = [] := by
  unfold columnAlters
  rw [List.flatMap_eq_nil_iff]
  intro c hc
  rcases hm c hc with ⟨c0, hf, hty, hnul⟩
  simp [altersFor, hf, hty, hnul]

theorem diff_eq_nil (X B : Schema)
    (h1 : ∀ x ∈ X.tables, ∃ bt, B.lookup x.key = some bt ∧ TableMatches x bt)
    (h2 : ∀ bt ∈ B.tables, (X.lookup bt.key).isSome = true) :
    X.diff B = [] := by
  have hdrop : toDropTables X B = [] := by
    rw [toDropTables, List.filter_eq_nil_iff]
    intro t ht
    rcases h1 t ht with ⟨bt, hbt, _⟩
    simp [hbt]
  have hcreate : toCreateTables X B = [] := by
    rw [toCreateTables, List.filter_eq_nil_iff]
    intro t ht hc
    have hs := h2 t ht
    rw [Option.isNone_iff_eq_none] at hc
    rw [hc] at hs
    cases hs
  have hpairs : ∀ ab ∈ inBothPairs X B,
      constraintDrops ab.1 ab.2 = [] ∧ indexDrops ab.1 ab.2 = [] ∧
      columnDrops ab.1 ab.2 = [] ∧ columnAdds ab.1 ab.2 = [] ∧
      columnAlters ab.1 ab.2 = [] ∧ constraintAdds ab.1 ab.2 = [] ∧
      indexAdds ab.1 ab.2 = [] := by
    intro ab hab
    rcases mem_inBothPairs.mp hab with ⟨hx, hbt⟩
    rcases h1 ab.1 hx with ⟨bt', hbt', htm⟩
    rw [hbt] at hbt'
    cases hbt'
    obtain ⟨tm1, tm2, tm3, tm4, tm5, tm6⟩ := htm
    exact ⟨constraintDrops_eq_nil tm3, indexDrops_eq_nil tm5, columnDrops_eq_nil tm1,
      columnAdds_eq_nil tm2, columnAlters_eq_nil tm2, constraintAdds_eq_nil tm4,
      indexAdds_eq_nil tm6⟩
  have e1 : (inBothPairs X B).flatMap
      (fun ab => constraintDrops ab.1 ab.2 ++ indexDrops ab.1 ab.2) = [] := by
    rw [List.flatMap_eq_nil_iff]
    intro ab hab
    rw [(hpairs ab hab).1, (hpairs ab hab).2.1]
    rfl
  have e2 : (inBothPairs X B).flatMap (fun ab => columnDrops ab.1 ab.2) = [] := by
    rw [List.flatMap_eq_nil_iff]
    intro ab hab
    exact (hpairs ab hab).2.2.1
  have e3 : (inBothPairs X B).flatMap
      (fun ab => columnAdds ab.1 ab.2 ++ columnAlters ab.1 ab.2) = [] := by
    rw [List.flatMap_eq_nil_iff]
    intro ab hab
    rw [(hpairs ab hab).2.2.2.1, (hpairs ab hab).2.2.2.2.1]
    rfl
  have e4 : (inBothPairs X B).flatMap
      (fun ab => constraintAdds ab.1 ab.2 ++ indexAdds ab.1 ab.2) = [] := by
    rw [List.flatMap_eq_nil_iff]
    intro ab hab
    rw [(hpairs ab hab).2.2.2.2.2.1, (hpairs ab hab).2.2.2.2.2.2]
    rfl
  rw [Schema.diff, phaseConstraintIndexDrops, phaseColumnDrops, phaseTableDrops,
    phaseTableCreates, phaseColumnAddsAlters, phaseConstraintIndexAdds, hdrop, hcreate,
    depOrder_nil, e1, e2, e3, e4]
  rfl

/-! ### C1 — diff idempotence -/

/-- C1: for every well-formed Schema snapshot S, `diff(S, S)` returns the
empty operation list — alters and all other operations are emitted only when
the two snapshots actually differ. -/
theorem diff_idempotent (S : Schema) (h : S.WellFormed) : S.diff S = [] := by
  obtain ⟨hkeys, hwf, _⟩ := h
  refine diff_eq_nil S S ?_ ?_
  · intro x hx
    refine ⟨x, mem_lookup_self S hkeys hx, ?_⟩
    obtain ⟨hc, hcn, hin, _⟩ := hwf x hx
    refine ⟨?_, ?_, ?_, ?_, ?_, ?_⟩
    · intro c hc2
      rw [find?_name_col hc hc2]
      rfl
    · intro c hc2
      exact ⟨c, find?_name_col hc hc2, rfl, rfl⟩
    · intro c hc2
      exact find?_name_constraint hcn hc2
    · intro c hc2
      exact find?_name_constraint hcn hc2
    · intro i hi
      exact find?_name_index hin hi
    · intro i hi
      exact find?_name_index hin hi
  · intro bt hbt
    rw [mem_lookup_self S hkeys hbt]
    rfl

/-- C1 witness: the sample snapshot is well-formed and diffs to nothing
against itself. -/
theorem diff_idempotent_witness :
    sampleA.WellFormed ∧ sampleA.diff sampleA = [] :=
  ⟨by decide, diff_idempotent sampleA (by decide)⟩

/-! ### C4 — foreign-key creation ordering from an empty actual schema -/

theorem diff_empty (S : Schema) :
    (Schema.mk []).diff S =
      (depOrder S.tables).map (fun t => DDLOperation.createTable (stripFKs t)) ++
      (depOrder S.tables).flatMap
        (fun t => (tableFKs t).map (fun c => DDLOperation.addConstraint t.key c)) := by
  have hcreate : toCreateTables (Schema.mk []) S = S.tables := by
    rw [toCreateTables]
    apply List.filter_eq_self.mpr
    intro t ht
    rfl
  have htd : toDropTables (Schema.mk []) S = [] := rfl
  have hib : inBothPairs (Schema.mk []) S = [] := rfl
  rw [Schema.diff, phaseConstraintIndexDrops, phaseColumnDrops, phaseTableDrops,
    phaseTableCreates, phaseColumnAddsAlters, phaseConstraintIndexAdds, hcreate, htd, hib,
    depOrder_nil]
  simp

/-- C4: for every well-formed Schema S, in `diff(∅, S)` no AddConstraint
operation carrying a ForeignKey appears before the CreateTable operation of
the table that foreign key references. -/
theorem fk_creation_ordering (S : Schema) (h : S.WellFormed) :
    ∀ (i : Nat) (κ : TableKey) (c : Constraint),
      ((Schema.mk []).diff S)[i]? = some (DDLOperation.addConstraint κ c) →
      ∀ rt ∈ constraintDeps c,
        ∃ (j : Nat) (t : Table), j < i ∧
          ((Schema.mk []).diff S)[j]? = some (DDLOperation.createTable t) ∧ t.key = rt := by
  intro i κ c hop rt hrt
  obtain ⟨hkeys, _, hfk⟩ := h
  set L1 := (depOrder S.tables).map (fun t => DDLOperation.createTable (stripFKs t)) with hL1
  set L2 := (depOrder S.tables).flatMap
    (fun t => (tableFKs t).map (fun c => DDLOperation.addConstraint t.key c)) with hL2
  have hdiff : (Schema.mk []).diff S = L1 ++ L2 := diff_empty S
  rw [hdiff] at hop
  rw [List.getElem?_append] at hop
  by_cases hi : i < L1.length
  · rw [if_pos hi] at hop
    exfalso
    rcases List.getElem?_eq_some_iff.mp hop with ⟨hlt, heq⟩
    have hmem : DDLOperation.addConstraint κ c ∈ L1 := heq ▸ List.getElem_mem hlt
    rcases List.mem_map.mp hmem with ⟨t, _, hct⟩
    cases hct
  · rw [if_neg hi] at hop
    -- the op is one of the deferred foreign keys of a table of S
    rcases List.getElem?_eq_some_iff.mp hop with ⟨hlt2, heq2⟩
    have hmem : DDLOperation.addConstraint κ c ∈ L2 := heq2 ▸ List.getElem_mem hlt2
    rcases List.mem_flatMap.mp hmem with ⟨t, hto, hcin⟩
    rcases List.mem_map.mp hcin with ⟨c2, hc2, hceq⟩
    cases hceq
    have htS : t ∈ S.tables := (depOrder_perm S.tables).mem_iff.mp hto
    have hcT : c ∈ t.constraints := (List.mem_filter.mp hc2).1
    have hrtdeps : rt ∈ fkDeps t := List.mem_flatMap.mpr ⟨c, hcT, hrt⟩
    have hsome := hfk t htS rt hrtdeps
    rcases Option.isSome_iff_exists.mp hsome with ⟨t2, ht2⟩
    rcases lookup_mem ht2 with ⟨ht2S, ht2key⟩
    have ht2o : t2 ∈ depOrder S.tables := (depOrder_perm S.tables).mem_iff.mpr ht2S
    rcases List.mem_iff_getElem?.mp ht2o with ⟨j, hj⟩
    have hjlt : j < (depOrder S.tables).length := (List.getElem?_eq_some_iff.mp hj).1
    refine ⟨j, stripFKs t2, ?_, ?_, ?_⟩
    · have : j < L1.length := by
        rw [hL1, List.length_map]
        exact hjlt
      omega
    · rw [hdiff, List.getElem?_append, if_pos (by rw [hL1, List.length_map]; exact hjlt)]
      rw [hL1, List.getElem?_map, hj]
      rfl
    · rw [stripFKs]
      exact ht2key

/-- C4 witness: a concrete well-formed snapshot created from the empty
schema. -/
theorem fk_creation_ordering_witness :
    sampleA.WellFormed ∧
    (∀ (i : Nat) (κ : TableKey) (c : Constraint),
      ((Schema.mk []).diff sampleA)[i]? = some (DDLOperation.addConstraint κ c) →
      ∀ rt ∈ constraintDeps c,
        ∃ (j : Nat) (t : Table), j < i ∧
          ((Schema.mk []).diff sampleA)[j]? = some (DDLOperation.createTable t) ∧
          t.key = rt) :=
  ⟨by decide, fk_creation_ordering sampleA (by decide)⟩

/-! ### C6 — synthesis determinism -/

theorem synthFields_names {cols : List Column} {fs : List FieldDef}
    (h : synthFields cols = .ok fs) :
    fs.map (fun f => f.name) = cols.map (fun c => c.name) := by
  induction cols generalizing fs with
  | nil => cases h; rfl
  | cons c cs ih =>
    unfold synthFields at h
    cases hm : mapType c.ty with
    | none => rw [hm] at h; cases h
    | some tt =>
      rw [hm] at h
      cases hr : synthFields cs with
      | error e => rw [hr] at h; cases h
      | ok fs2 =>
        rw [hr] at h
        cases h
        simp [ih hr]

theorem synthUnits_mem {ts : List Table} {us : List GeneratedUnit}
    (h : synthUnits ts = .ok us) :
    ∀ u ∈ us, ∃ t ∈ ts, synthTable t = .ok u := by
  induction ts generalizing us with
  | nil => cases h; intro u hu; cases hu
  | cons t ts ih =>
    unfold synthUnits at h
    cases h1 : synthTable t with
    | error e => rw [h1] at h; cases h
    | ok u0 =>
      rw [h1] at h
      cases h2 : synthUnits ts with
      | error e => rw [h2] at h; cases h
      | ok us2 =>
        rw [h2] at h
        cases h
        intro u hu
        rcases List.mem_cons.mp hu with rfl | hu2
        · exact ⟨t, List.mem_cons_self _ _, h1⟩
        · rcases ih h2 u hu2 with ⟨t2, ht2, hs⟩
          exact ⟨t2, List.mem_cons_of_mem _ ht2, hs⟩

theorem synthTable_spec {t : Table} {u : GeneratedUnit} (h : synthTable t = .ok u) :
    u.key = t.key ∧ u.fields.map (fun f => f.name) = t.columns.map (fun c => c.name) ∧
    u.constraints = t.constraints ∧ u.queries = queriesFor t := by
  unfold synthTable at h
  cases hf : synthFields t.columns with
  | error e => rw [hf] at h; cases h
  | ok fs =>
    rw [hf] at h
    cases h
    exact ⟨rfl, synthFields_names hf, rfl, rfl⟩

/-- C6: synthesis is deterministic — two runs over an unchanged Schema are
two evaluations of the same pure function and thus identical; moreover every
unit's field ordering is exactly the table's column ordinal order and every
query list is `queriesFor` of the table, whose parameter lists are built
from the column ordinal order (primary-key columns first), so parameter
position N denotes the same column of a given table in both runs. -/
theorem synthesis_deterministic (S : Schema) (units : List GeneratedUnit)
    (h : synthesize S = .ok units) :
    synthesize S = synthesize S ∧
    ∀ u ∈ units, ∃ t, t ∈ S.tables ∧ u.key = t.key ∧
      u.fields.map (fun f => f.name) = t.columns.map (fun c => c.name) ∧
      u.queries = queriesFor t := by
  refine ⟨rfl, ?_⟩
  intro u hu
  rcases synthUnits_mem h u hu with ⟨t, ht, hst⟩
  have hmem := (depOrder_perm S.tables).mem_iff.mp ht
  rcases synthTable_spec hst with ⟨h1, h2, _, h4⟩
  exact ⟨t, hmem, h1, h2, h4⟩

/-- C6 witness: a concrete synthesis run over the sample snapshot. -/
theorem synthesis_deterministic_witness :
    synthesize sampleA = .ok sampleUnits ∧
    (synthesize sampleA = synthesize sampleA ∧
     ∀ u ∈ sampleUnits, ∃ t, t ∈ sampleA.tables ∧ u.key = t.key ∧
       u.fields.map (fun f => f.name) = t.columns.map (fun c => c.name) ∧
       u.queries = queriesFor t) :=
  ⟨by decide, synthesis_deterministic sampleA sampleUnits (by decide)⟩

/-! ### C2 — round-trip of synthesis through the model parser -/

theorem unmap_map {d : TypeDesc} {tt : TargetType} (h : mapType d = some tt) :
    unmapType tt = d := by
  rcases d with ⟨base, len, prec⟩
  cases len with
  | some v => simp [mapType] at h
  | none =>
    cases prec with
    | some v => simp [mapType] at h
    | none =>
      unfold mapType at h
      split_ifs at h with h1 h2 h3 h4 h5 h6 h7 h8 h9 h10 h11 <;>
        (try cases h) <;> subst_vars <;> rfl

theorem parseFields_synthFields {cols : List Column} {fs : List FieldDef} {n : Nat}
    (h : synthFields cols = .ok fs) (ho : ordinalsFrom n cols) :
    parseFields n fs = cols := by
  induction cols generalizing fs n with
  | nil => cases h; rfl
  | cons c cs ih =>
    unfold synthFields at h
    cases hm : mapType c.ty with
    | none => rw [hm] at h; cases h
    | some tt =>
      rw [hm] at h
      cases hr : synthFields cs with
      | error e => rw [hr] at h; cases h
      | ok fs2 =>
        rw [hr] at h
        cases h
        have hoc : c.ordinal = n ∧ ordinalsFrom (n + 1) cs := ho
        unfold parseFields
        rw [ih hr hoc.2, unmap_map hm, ← hoc.1]

theorem parseUnit_synthTable {t : Table} {u : GeneratedUnit}
    (h : synthTable t = .ok u) (hw : t.wf) : parseUnit u = eraseIndexes t := by
  unfold synthTable at h
  cases hf : synthFields t.columns with
  | error e => rw [hf] at h; cases h
  | ok fs =>
    rw [hf] at h
    cases h
    unfold parseUnit eraseIndexes
    rw [parseFields_synthFields hf hw.2.2.2]

theorem synthUnits_parse {ts : List Table} {us : List GeneratedUnit}
    (h : synthUnits ts = .ok us) (hw : ∀ t ∈ ts, t.wf) :
    us.map parseUnit = ts.map eraseIndexes := by
  induction ts generalizing us with
  | nil => cases h; rfl
  | cons t ts ih =>
    unfold synthUnits at h
    cases h1 : synthTable t with
    | error e => rw [h1] at h; cases h
    | ok u0 =>
      rw [h1] at h
      cases h2 : synthUnits ts with
      | error e => rw [h2] at h; cases h
      | ok us2 =>
        rw [h2] at h
        cases h
        rw [List.map_cons, List.map_cons,
          parseUnit_synthTable h1 (hw t (List.mem_cons_self _ _)),
          ih h2 (fun x hx => hw x (List.mem_cons_of_mem _ hx))]

theorem lookup_map_eraseIndexes (ts : List Table) (k : TableKey) :
    (Schema.mk (ts.map eraseIndexes)).lookup k =
      ((Schema.mk ts).lookup k).map eraseIndexes := by
  induction ts with
  | nil => rfl
  | cons t ts ih =>
    simp only [Schema.lookup, List.map_cons] at ih ⊢
    by_cases h : t.key = k
    · rw [List.find?_cons_of_pos _ (by simp [eraseIndexes, h]),
        List.find?_cons_of_pos _ (by simp [h])]
      rfl
    · rw [List.find?_cons_of_neg _ (by simp [eraseIndexes, h]),
        List.find?_cons_of_neg _ (by simp [h])]
      exact ih

theorem lookup_perm {ts1 ts2 : List Table} (hperm : ts1.Perm ts2)
    (hk : (ts1.map (fun t => t.key)).Pairwise (fun a b => a ≠ b)) (k : TableKey) :
    (Schema.mk ts1).lookup k = (Schema.mk ts2).lookup k := by
  have hk2 : (ts2.map (fun t => t.key)).Pairwise (fun a b => a ≠ b) :=
    (List.Perm.pairwise_iff (fun h => h.symm) (hperm.map (fun t => t.key))).mp hk
  cases hf : (Schema.mk ts1).lookup k with
  | some t =>
    rcases lookup_mem hf with ⟨hmem, hkey⟩
    have hmem2 : t ∈ ts2 := hperm.mem_iff.mp hmem
    have h2 := mem_lookup_self (Schema.mk ts2) hk2 hmem2
    rw [hkey] at h2
    rw [h2]
  | none =>
    cases hf2 : (Schema.mk ts2).lookup k with
    | none => rfl
    | some t =>
      rcases lookup_mem hf2 with ⟨hmem2, hkey2⟩
      have hmem1 : t ∈ ts1 := hperm.mem_iff.mpr hmem2
      have hs : ((Schema.mk ts1).lookup t.key).isSome = true := by
        rw [lookup_isSome_iff]
        exact List.mem_map.mpr ⟨t, hmem1, rfl⟩
      rw [hkey2, hf] at hs
      cases hs

/-- C2: for every well-formed Schema S whose synthesis succeeds, parsing the
synthesized units reconstructs a Schema structurally equal to S restricted
to the subset synthesis preserves — all columns (name, type, nullability,
default, ordinal) and all constraints; only the index list is not carried
through the synthesis format. -/
theorem parse_synthesize_roundtrip (S : Schema) (units : List GeneratedUnit)
    (hwf : S.WellFormed) (h : synthesize S = .ok units) :
    ∀ k, (parse units).lookup k = (S.lookup k).map eraseIndexes := by
  intro k
  obtain ⟨hkeys, hw, _⟩ := hwf
  have hperm := depOrder_perm S.tables
  have hwd : ∀ t ∈ depOrder S.tables, t.wf := fun t ht => hw t (hperm.mem_iff.mp ht)
  have hmap : units.map parseUnit = (depOrder S.tables).map eraseIndexes :=
    synthUnits_parse h hwd
  have hpu : parse units = Schema.mk ((depOrder S.tables).map eraseIndexes) := by
    rw [parse, hmap]
  have hkd : ((depOrder S.tables).map (fun t => t.key)).Pairwise (fun a b => a ≠ b) :=
    (List.Perm.pairwise_iff (fun h => h.symm) ((hperm.map (fun t => t.key)).symm)).mp hkeys
  have hlk : (Schema.mk (depOrder S.tables)).lookup k = S.lookup k :=
    lookup_perm hperm hkd k
  rw [hpu, lookup_map_eraseIndexes, hlk]

/-- C2 witness: the concrete round trip over the sample snapshot. -/
theorem parse_synthesize_roundtrip_witness :
    sampleA.WellFormed ∧ synthesize sampleA = .ok sampleUnits ∧
    (∀ k, (parse sampleUnits).lookup k = (sampleA.lookup k).map eraseIndexes) :=
  ⟨by decide, by decide,
   parse_synthesize_roundtrip sampleA sampleUnits (by decide) (by decide)⟩

/-! ### Shapes and keys of the emitted operations -/

theorem altersFor_shape (a : Table) (c : Column) :
    ∀ op ∈ altersFor a c, isAlter op = true ∧ alterColName op = c.name ∧
      isModify op = true ∧ opKey op = a.key := by
  intro op hop
  unfold altersFor at hop
  cases hf : a.columns.find? (fun d => d.name == c.name) with
  | none => rw [hf] at hop; cases hop
  | some c0 =>
    rw [hf] at hop
    rcases List.mem_append.mp hop with h | h
    · by_cases hty : (c0.ty == c.ty) = true
      · rw [if_pos hty] at h; cases h
      · rw [if_neg hty] at h
        have heq := List.mem_singleton.mp h
        subst heq
        exact ⟨rfl, rfl, rfl, rfl⟩
    · by_cases hnb : (c0.nullable == c.nullable) = true
      · rw [if_pos hnb] at h; cases h
      · rw [if_neg hnb] at h
        have heq := List.mem_singleton.mp h
        subst heq
        exact ⟨rfl, rfl, rfl, rfl⟩

theorem omk_cidrops (a b : Table) :
    opsModifyKeyed a.key (constraintDrops a b ++ indexDrops a b) := by
  intro op hop
  unfold constraintDrops indexDrops at hop
  rcases List.mem_append.mp hop with h | h
  · rcases List.mem_map.mp h with ⟨c, _, rfl⟩
    exact ⟨rfl, rfl⟩
  · rcases List.mem_map.mp h with ⟨i, _, rfl⟩
    exact ⟨rfl, rfl⟩

theorem omk_coldrops (a b : Table) : opsModifyKeyed a.key (columnDrops a b) := by
  intro op hop
  unfold columnDrops at hop
  rcases List.mem_map.mp hop with ⟨c, _, rfl⟩
  exact ⟨rfl, rfl⟩

theorem omk_addalters (a b : Table) :
    opsModifyKeyed a.key (columnAdds a b ++ columnAlters a b) := by
  intro op hop
  rcases List.mem_append.mp hop with h | h
  · unfold columnAdds at h
    rcases List.mem_map.mp h with ⟨c, _, rfl⟩
    exact ⟨rfl, rfl⟩
  · unfold columnAlters at h
    rcases List.mem_flatMap.mp h with ⟨c, _, hin⟩
    rcases altersFor_shape a c op hin with ⟨_, _, h3, h4⟩
    exact ⟨h3, h4⟩

theorem omk_ciadds (a b : Table) :
    opsModifyKeyed a.key (constraintAdds a b ++ indexAdds a b) := by
  intro op hop
  unfold constraintAdds indexAdds at hop
  rcases List.mem_append.mp hop with h | h
  · rcases List.mem_map.mp h with ⟨c, _, rfl⟩
    exact ⟨rfl, rfl⟩
  · rcases List.mem_map.mp h with ⟨i, _, rfl⟩
    exact ⟨rfl, rfl⟩

theorem omk_tcid (t : Table) : opsModifyKeyed t.key (tableConstraintIndexDrops t) := by
  intro op hop
  unfold tableConstraintIndexDrops at hop
  rcases List.mem_append.mp hop with h | h
  · rcases List.mem_map.mp h with ⟨c, _, rfl⟩
    exact ⟨rfl, rfl⟩
  · rcases List.mem_map.mp h with ⟨i, _, rfl⟩
    exact ⟨rfl, rfl⟩

theorem omk_fkadds (t : Table) :
    opsModifyKeyed t.key ((tableFKs t).map (fun c => DDLOperation.addConstraint t.key c)) := by
  intro op hop
  rcases List.mem_map.mp hop with ⟨c, _, rfl⟩
  exact ⟨rfl, rfl⟩

theorem mem_toDrop {A B : Schema} {t : Table} :
    t ∈ toDropTables A B ↔ t ∈ A.tables ∧ (B.lookup t.key).isNone = true := by
  simp [toDropTables, List.mem_filter]

theorem mem_toCreate {A B : Schema} {t : Table} :
    t ∈ toCreateTables A B ↔ t ∈ B.tables ∧ (A.lookup t.key).isNone = true := by
  simp [toCreateTables, List.mem_filter]

theorem mem_orderedDropRev {A B : Schema} {t : Table} :
    t ∈ (depOrder (toDropTables A B)).reverse ↔ t ∈ toDropTables A B := by
  rw [List.mem_reverse]
  exact (depOrder_perm _).mem_iff

theorem mem_orderedCreate {A B : Schema} {t : Table} :
    t ∈ depOrder (toCreateTables A B) ↔ t ∈ toCreateTables A B :=
  (depOrder_perm _).mem_iff

theorem toDrop_keys_pairwise {A : Schema} (B : Schema)
    (hA : (keysOf A).Pairwise (fun a b => a ≠ b)) :
    ((depOrder (toDropTables A B)).reverse).Pairwise (fun u v => u.key ≠ v.key) := by
  have h1 : A.tables.Pairwise (fun u v => u.key ≠ v.key) := List.pairwise_map.mp hA
  have h2 : (toDropTables A B).Pairwise (fun u v => u.key ≠ v.key) :=
    List.Pairwise.sublist (List.filter_sublist _) h1
  have h3 : (depOrder (toDropTables A B)).Pairwise (fun u v => u.key ≠ v.key) :=
    (List.Perm.pairwise_iff (fun h => h.symm) (depOrder_perm _)).mpr h2
  rw [List.pairwise_reverse]
  exact h3.imp (fun h => h.symm)

theorem toCreate_keys_pairwise {B : Schema} (A : Schema)
    (hB : (keysOf B).Pairwise (fun a b => a ≠ b)) :
    (depOrder (toCreateTables A B)).Pairwise (fun u v => u.key ≠ v.key) := by
  have h1 : B.tables.Pairwise (fun u v => u.key ≠ v.key) := List.pairwise_map.mp hB
  have h2 : (toCreateTables A B).Pairwise (fun u v => u.key ≠ v.key) :=
    List.Pairwise.sublist (List.filter_sublist _) h1
  exact (List.Perm.pairwise_iff (fun h => h.symm) (depOrder_perm _)).mpr h2

theorem isColumnAddAlter_of_isAlter {op : DDLOperation} (h : isAlter op = true) :
    isColumnAddAlter op = true := by
  cases op <;> first | rfl | simp [isAlter] at h

theorem phase1_shape (A B : Schema) :
    ∀ op ∈ phaseConstraintIndexDrops A B, isConstraintIndexDrop op = true := by
  intro op hop
  unfold phaseConstraintIndexDrops at hop
  rcases List.mem_append.mp hop with h | h
  · rcases List.mem_flatMap.mp h with ⟨ab, _, hin⟩
    unfold constraintDrops indexDrops at hin
    rcases List.mem_append.mp hin with h2 | h2 <;>
      rcases List.mem_map.mp h2 with ⟨c, _, rfl⟩ <;> rfl
  · rcases List.mem_flatMap.mp h with ⟨t, _, hin⟩
    unfold tableConstraintIndexDrops at hin
    rcases List.mem_append.mp hin with h2 | h2 <;>
      rcases List.mem_map.mp h2 with ⟨c, _, rfl⟩ <;> rfl

theorem phase2_shape (A B : Schema) :
    ∀ op ∈ phaseColumnDrops A B, isColumnDrop op = true := by
  intro op hop
  unfold phaseColumnDrops at hop
  rcases List.mem_flatMap.mp hop with ⟨ab, _, hin⟩
  unfold columnDrops at hin
  rcases List.mem_map.mp hin with ⟨c, _, rfl⟩
  rfl

theorem phase3_shape (A B : Schema) :
    ∀ op ∈ phaseTableDrops A B, isTableDrop op = true := by
  intro op hop
  unfold phaseTableDrops at hop
  rcases List.mem_map.mp hop with ⟨t, _, rfl⟩
  rfl

theorem phase4_shape (A B : Schema) :
    ∀ op ∈ phaseTableCreates A B, isTableCreate op = true := by
  intro op hop
  unfold phaseTableCreates at hop
  rcases List.mem_map.mp hop with ⟨t, _, rfl⟩
  rfl

theorem phase5_shape (A B : Schema) :
    ∀ op ∈ phaseColumnAddsAlters A B, isColumnAddAlter op = true := by
  intro op hop
  unfold phaseColumnAddsAlters at hop
  rcases List.mem_flatMap.mp hop with ⟨ab, _, hin⟩
  rcases List.mem_append.mp hin with h | h
  · unfold columnAdds at h
    rcases List.mem_map.mp h with ⟨c, _, rfl⟩
    rfl
  · unfold columnAlters at h
    rcases List.mem_flatMap.mp h with ⟨c, _, hin2⟩
    exact isColumnAddAlter_of_isAlter (altersFor_shape ab.1 c op hin2).1

theorem phase6_shape (A B : Schema) :
    ∀ op ∈ phaseConstraintIndexAdds A B, isConstraintIndexAdd op = true := by
  intro op hop
  unfold phaseConstraintIndexAdds at hop
  rcases List.mem_append.mp hop with h | h
  · rcases List.mem_flatMap.mp h with ⟨ab, _, hin⟩
    unfold constraintAdds indexAdds at hin
    rcases List.mem_append.mp hin with h2 | h2 <;>
      rcases List.mem_map.mp h2 with ⟨c, _, rfl⟩ <;> rfl
  · rcases List.mem_flatMap.mp h with ⟨t, _, hin⟩
    rcases List.mem_map.mp hin with ⟨c, _, rfl⟩
    rfl

/-! ### Per-table effects of each phase -/

theorem applyT_cidrops (a b : Table)
    (hwc : a.constraints.Pairwise (fun u v => u.name ≠ v.name))
    (hwi : a.indexes.Pairwise (fun u v => u.name ≠ v.name)) :
    applyT (constraintDrops a b ++ indexDrops a b) a = stage1Table a b := by
  rw [applyT_append]
  have h1 : constraintDrops a b =
      ((a.constraints.filter (fun c => !(keptBy (fun c => c.name) b.constraints c))).map
          (fun c => c.name)).map (fun n => DDLOperation.dropConstraint a.key n) := by
    unfold constraintDrops
    rw [List.map_map]
    rfl
  have h2 : indexDrops a b =
      ((a.indexes.filter (fun i => !(keptBy (fun i => i.name) b.indexes i))).map
          (fun i => i.name)).map (fun n => DDLOperation.dropIndex a.key n) := by
    unfold indexDrops
    rw [List.map_map]
    rfl
  rw [h1, applyT_dropConstraints, h2, applyT_dropIndexes]
  unfold stage1Table keptConstraints keptIndexes
  congr 1
  · exact filter_not_dropped (fun c => c.name)
      (keptBy (fun c => c.name) b.constraints) a.constraints hwc
  · exact filter_not_dropped (fun i => i.name)
      (keptBy (fun i => i.name) b.indexes) a.indexes hwi

theorem applyT_coldrops (a b : Table)
    (hwcol : a.columns.Pairwise (fun u v => u.name ≠ v.name)) :
    applyT (columnDrops a b) (stage1Table a b) = stage2Table a b := by
  have h1 : columnDrops a b =
      ((a.columns.filter (fun c => !(columnKept b c))).map (fun c => c.name)).map
        (fun n => DDLOperation.dropColumn a.key n) := by
    unfold columnDrops
    rw [List.map_map]
    rfl
  rw [h1, applyT_dropColumns]
  unfold stage2Table keptColumns
  congr 1
  exact filter_not_dropped (fun c => c.name) (columnKept b) a.columns hwcol

theorem columnAlters_alter_shape (a b : Table) :
    ∀ op ∈ columnAlters a b, isAlter op = true := by
  intro op hop
  unfold columnAlters at hop
  rcases List.mem_flatMap.mp hop with ⟨c, _, hin⟩
  exact (altersFor_shape a c op hin).1

theorem applyT_addalters (a b : Table) :
    applyT (columnAdds a b ++ columnAlters a b) (stage2Table a b) = stage5Table a b := by
  rw [applyT_append]
  have h1 : columnAdds a b =
      (addedColumns a b).map (fun c => DDLOperation.addColumn a.key c) := rfl
  rw [h1, applyT_addColumns, applyT_alters _ (columnAlters_alter_shape a b)]
  rfl

theorem applyT_ciadds (a b : Table) :
    applyT (constraintAdds a b ++ indexAdds a b) (stage5Table a b) = mergeTables a b := by
  rw [applyT_append]
  have h1 : constraintAdds a b =
      (addedConstraints a b).map (fun c => DDLOperation.addConstraint a.key c) := rfl
  have h2 : indexAdds a b =
      (addedIndexes a b).map (fun i => DDLOperation.createIndex a.key i) := rfl
  rw [h1, applyT_addConstraints, h2, applyT_addIndexes]
  rfl

theorem applyT_tcid (t : Table) :
    applyT (tableConstraintIndexDrops t) t = { t with constraints := [], indexes := [] } := by
  unfold tableConstraintIndexDrops
  rw [applyT_append]
  have h1 : t.constraints.map (fun c => DDLOperation.dropConstraint t.key c.name)
      = (t.constraints.map (fun c => c.name)).map
          (fun n => DDLOperation.dropConstraint t.key n) := by
    rw [List.map_map]
    rfl
  have h2 : t.indexes.map (fun i => DDLOperation.dropIndex t.key i.name)
      = (t.indexes.map (fun i => i.name)).map (fun n => DDLOperation.dropIndex t.key n) := by
    rw [List.map_map]
    rfl
  rw [h1, applyT_dropConstraints, h2, applyT_dropIndexes]
  congr 1
  · rw [List.filter_eq_nil_iff]
    intro c hc
    have hm : c.name ∈ t.constraints.map (fun c => c.name) := List.mem_map.mpr ⟨c, hc, rfl⟩
    simp [hm]
  · rw [List.filter_eq_nil_iff]
    intro i hi
    have hm : i.name ∈ t.indexes.map (fun i => i.name) := List.mem_map.mpr ⟨i, hi, rfl⟩
    simp [hm]

theorem applyT_fkadds (bt : Table) :
    applyT ((tableFKs bt).map (fun c => DDLOperation.addConstraint bt.key c)) (stripFKs bt)
      = createMergedTable bt :=
  applyT_addConstraints bt.key (tableFKs bt) (stripFKs bt)

/-! ### Applying table drops and creates -/

theorem lookup_apply_dropTables (s : Schema) (ks : List TableKey) (j : TableKey) :
    (s.apply (ks.map DDLOperation.dropTable)).lookup j =
      if j ∈ ks then none else s.lookup j := by
  induction ks generalizing s with
  | nil =>
    show s.lookup j = if j ∈ ([] : List TableKey) then none else s.lookup j
    simp
  | cons κ ks ih =>
    have happ : s.apply ((κ :: ks).map DDLOperation.dropTable)
        = (applyOp s (.dropTable κ)).apply (ks.map DDLOperation.dropTable) := rfl
    rw [happ, ih, lookup_applyOp_dropTable]
    by_cases hks : j ∈ ks
    · rw [if_pos hks, if_pos (List.mem_cons_of_mem _ hks)]
    · rw [if_neg hks]
      by_cases hκ : j = κ
      · rw [if_pos hκ, if_pos (List.mem_cons.mpr (Or.inl hκ))]
      · rw [if_neg hκ, if_neg (fun hc => (List.mem_cons.mp hc).elim hκ hks)]

theorem keysOf_apply_dropTables (s : Schema) (ks : List TableKey) :
    keysOf (s.apply (ks.map DDLOperation.dropTable)) =
      (keysOf s).filter (fun k => !(decide (k ∈ ks))) := by
  induction ks generalizing s with
  | nil =>
    show keysOf s = (keysOf s).filter (fun k => !(decide (k ∈ ([] : List TableKey))))
    simp
  | cons κ ks ih =>
    have happ : s.apply ((κ :: ks).map DDLOperation.dropTable)
        = (applyOp s (.dropTable κ)).apply (ks.map DDLOperation.dropTable) := rfl
    rw [happ, ih, keysOf_applyOp_dropTable, List.filter_filter]
    apply List.filter_congr
    intro k _
    by_cases h1 : k = κ <;> by_cases h2 : k ∈ ks <;> simp [h1, h2]

theorem lookup_apply_createTables (s : Schema) (ts : List Table) (j : TableKey) :
    (s.apply (ts.map DDLOperation.createTable)).lookup j =
      (s.lookup j).or (ts.find? (fun t => t.key == j)) := by
  induction ts generalizing s with
  | nil =>
    show s.lookup j = (s.lookup j).or (List.find? (fun t => t.key == j) [])
    rw [List.find?_nil, Option.or_none]
  | cons t ts ih =>
    have happ : s.apply ((t :: ts).map DDLOperation.createTable)
        = (applyOp s (.createTable t)).apply (ts.map DDLOperation.createTable) := rfl
    rw [happ, ih, lookup_applyOp_createTable]
    by_cases h : t.key = j
    · rw [List.find?_cons_of_pos _ (by simp [h]), if_pos h]
      cases s.lookup j <;> rfl
    · rw [List.find?_cons_of_neg _ (by simp [h]), if_neg h]
      cases s.lookup j <;> rfl

theorem keysOf_apply_createTables (s : Schema) (ts : List Table) :
    keysOf (s.apply (ts.map DDLOperation.createTable)) =
      keysOf s ++ ts.map (fun t => t.key) := by
  induction ts generalizing s with
  | nil =>
    show keysOf s = keysOf s ++ []
    rw [List.append_nil]
  | cons t ts ih =>
    have happ : s.apply ((t :: ts).map DDLOperation.createTable)
        = (applyOp s (.createTable t)).apply (ts.map DDLOperation.createTable) := rfl
    rw [happ, ih, keysOf_applyOp_createTable, List.append_assoc]
    rfl

theorem phaseTableDrops_eq (A B : Schema) :
    phaseTableDrops A B =
      (((depOrder (toDropTables A B)).reverse).map (fun t => t.key)).map
        DDLOperation.dropTable := by
  unfold phaseTableDrops
  rw [List.map_map]
  rfl

theorem phaseTableCreates_eq (A B : Schema) :
    phaseTableCreates A B =
      ((depOrder (toCreateTables A B)).map stripFKs).map DDLOperation.createTable := by
  unfold phaseTableCreates
  rw [List.map_map]
  rfl

/-! ### Stage characterization: phases 1 and 2 -/

theorem phase1_modify (A B : Schema) :
    ∀ op ∈ phaseConstraintIndexDrops A B, isModify op = true := by
  intro op hop
  unfold phaseConstraintIndexDrops at hop
  rcases List.mem_append.mp hop with h | h
  · rcases List.mem_flatMap.mp h with ⟨ab, _, hin⟩
    exact (omk_cidrops ab.1 ab.2 op hin).1
  · rcases List.mem_flatMap.mp h with ⟨t, _, hin⟩
    exact (omk_tcid t op hin).1

theorem phase2_modify (A B : Schema) :
    ∀ op ∈ phaseColumnDrops A B, isModify op = true := by
  intro op hop
  unfold phaseColumnDrops at hop
  rcases List.mem_flatMap.mp hop with ⟨ab, _, hin⟩
  exact (omk_coldrops ab.1 ab.2 op hin).1

theorem phase5_modify (A B : Schema) :
    ∀ op ∈ phaseColumnAddsAlters A B, isModify op = true := by
  intro op hop
  unfold phaseColumnAddsAlters at hop
  rcases List.mem_flatMap.mp hop with ⟨ab, _, hin⟩
  exact (omk_addalters ab.1 ab.2 op hin).1

theorem phase6_modify (A B : Schema) :
    ∀ op ∈ phaseConstraintIndexAdds A B, isModify op = true := by
  intro op hop
  unfold phaseConstraintIndexAdds at hop
  rcases List.mem_append.mp hop with h | h
  · rcases List.mem_flatMap.mp h with ⟨ab, _, hin⟩
    exact (omk_ciadds ab.1 ab.2 op hin).1
  · rcases List.mem_flatMap.mp h with ⟨t, _, hin⟩
    exact (omk_fkadds t op hin).1

theorem stage1_keys (A B : Schema) : keysOf (stage1 A B) = keysOf A :=
  keysOf_apply_modify A _ (phase1_modify A B)

theorem stage2_keys (A B : Schema) : keysOf (stage2 A B) = keysOf A := by
  unfold stage2
  rw [keysOf_apply_modify _ _ (phase2_modify A B), stage1_keys]

theorem pair_key_ne_of_B_none {A B : Schema} {j : TableKey}
    (hj : (B.lookup j).isNone = true) :
    ∀ ab ∈ inBothPairs A B, ab.1.key ≠ j := by
  intro ab hab heq
  have hb := (mem_inBothPairs.mp hab).2
  rw [heq, Option.isNone_iff_eq_none.mp hj] at hb
  cases hb

theorem drop_key_ne_of_B_some {A B : Schema} {j : TableKey}
    (hj : (B.lookup j).isSome = true) :
    ∀ t ∈ (depOrder (toDropTables A B)).reverse, t.key ≠ j := by
  intro t ht heq
  have hn := (mem_toDrop.mp (mem_orderedDropRev.mp ht)).2
  rw [heq, Option.isNone_iff_eq_none] at hn
  rw [hn] at hj
  cases hj

theorem key_ne_of_A_none {A : Schema} {j : TableKey} (hj : A.lookup j = none)
    {x : Table} (hx : x ∈ A.tables) : x.key ≠ j := by
  intro heq
  have hs : (A.lookup x.key).isSome = true :=
    lookup_isSome_iff A x.key |>.mpr (List.mem_map.mpr ⟨x, hx, rfl⟩)
  rw [heq, hj] at hs
  cases hs

theorem stage1_lookup_both (A B : Schema) (hA : A.WellFormed)
    {a b : Table} (ha : a ∈ A.tables) (hb : B.lookup a.key = some b) :
    (stage1 A B).lookup a.key = some (stage1Table a b) := by
  obtain ⟨hkeys, hwf, _⟩ := hA
  have hsome : (B.lookup a.key).isSome = true := by rw [hb]; rfl
  have hmem : (a, b) ∈ inBothPairs A B := mem_inBothPairs.mpr ⟨ha, hb⟩
  have h1 := lookup_apply_flatMapKeyed_mem (fun ab : Table × Table => ab.1.key)
      (fun ab => constraintDrops ab.1 ab.2 ++ indexDrops ab.1 ab.2)
      (inBothPairs A B) A (fun ab _ => omk_cidrops ab.1 ab.2)
      (inBothPairs_keys_pairwise B hkeys) hmem rfl
  have h2 := lookup_apply_flatMapKeyed_none (fun t : Table => t.key)
      tableConstraintIndexDrops ((depOrder (toDropTables A B)).reverse)
      (A.apply ((inBothPairs A B).flatMap
        (fun ab => constraintDrops ab.1 ab.2 ++ indexDrops ab.1 ab.2))) a.key
      (fun t _ => omk_tcid t) (drop_key_ne_of_B_some hsome)
  calc (stage1 A B).lookup a.key
      = ((A.apply ((inBothPairs A B).flatMap
          (fun ab => constraintDrops ab.1 ab.2 ++ indexDrops ab.1 ab.2))).apply
          (((depOrder (toDropTables A B)).reverse).flatMap
            tableConstraintIndexDrops)).lookup a.key := by
        unfold stage1 phaseConstraintIndexDrops
        rw [apply_append]
    _ = (A.apply ((inBothPairs A B).flatMap
          (fun ab => constraintDrops ab.1 ab.2 ++ indexDrops ab.1 ab.2))).lookup a.key := h2
    _ = (A.lookup a.key).map (applyT (constraintDrops a b ++ indexDrops a b)) := h1
    _ = some (applyT (constraintDrops a b ++ indexDrops a b) a) := by
        rw [mem_lookup_self A hkeys ha]
        rfl
    _ = some (stage1Table a b) := by
        rw [applyT_cidrops a b (hwf a ha).2.1 (hwf a ha).2.2.1]

theorem stage1_lookup_drop (A B : Schema) (hA : A.WellFormed)
    {t0 : Table} (ht : t0 ∈ toDropTables A B) :
    (stage1 A B).lookup t0.key = some { t0 with constraints := [], indexes := [] } := by
  obtain ⟨hkeys, hwf, _⟩ := hA
  have ht0A : t0 ∈ A.tables := (mem_toDrop.mp ht).1
  have ht0N : (B.lookup t0.key).isNone = true := (mem_toDrop.mp ht).2
  have h1 := lookup_apply_flatMapKeyed_none (fun ab : Table × Table => ab.1.key)
      (fun ab => constraintDrops ab.1 ab.2 ++ indexDrops ab.1 ab.2) (inBothPairs A B) A t0.key
      (fun ab _ => omk_cidrops ab.1 ab.2) (pair_key_ne_of_B_none ht0N)
  have h2 := lookup_apply_flatMapKeyed_mem (fun t : Table => t.key) tableConstraintIndexDrops
      ((depOrder (toDropTables A B)).reverse)
      (A.apply ((inBothPairs A B).flatMap
        (fun ab => constraintDrops ab.1 ab.2 ++ indexDrops ab.1 ab.2)))
      (fun t _ => omk_tcid t) (toDrop_keys_pairwise B hkeys)
      (mem_orderedDropRev.mpr ht) rfl
  calc (stage1 A B).lookup t0.key
      = ((A.apply ((inBothPairs A B).flatMap
          (fun ab => constraintDrops ab.1 ab.2 ++ indexDrops ab.1 ab.2))).apply
          (((depOrder (toDropTables A B)).reverse).flatMap
            tableConstraintIndexDrops)).lookup t0.key := by
        unfold stage1 phaseConstraintIndexDrops
        rw [apply_append]
    _ = ((A.apply ((inBothPairs A B).flatMap
          (fun ab => constraintDrops ab.1 ab.2 ++ indexDrops ab.1 ab.2))).lookup t0.key).map
          (applyT (tableConstraintIndexDrops t0)) := h2
    _ = (A.lookup t0.key).map (applyT (tableConstraintIndexDrops t0)) := by rw [h1]
    _ = some (applyT (tableConstraintIndexDrops t0) t0) := by
        rw [mem_lookup_self A hkeys ht0A]
        rfl
    _ = some { t0 with constraints := [], indexes := [] } := by rw [applyT_tcid]

theorem stage1_lookup_none (A B : Schema) {j : TableKey} (hj : A.lookup j = none) :
    (stage1 A B).lookup j = none := by
  have h1 := lookup_apply_flatMapKeyed_none (fun ab : Table × Table => ab.1.key)
      (fun ab => constraintDrops ab.1 ab.2 ++ indexDrops ab.1 ab.2) (inBothPairs A B) A j
      (fun ab _ => omk_cidrops ab.1 ab.2)
      (fun ab hab => key_ne_of_A_none hj (mem_inBothPairs.mp hab).1)
  have h2 := lookup_apply_flatMapKeyed_none (fun t : Table => t.key)
      tableConstraintIndexDrops ((depOrder (toDropTables A B)).reverse)
      (A.apply ((inBothPairs A B).flatMap
        (fun ab => constraintDrops ab.1 ab.2 ++ indexDrops ab.1 ab.2))) j
      (fun t _ => omk_tcid t)
      (fun t ht => key_ne_of_A_none hj (mem_toDrop.mp (mem_orderedDropRev.mp ht)).1)
  calc (stage1 A B).lookup j
      = ((A.apply ((inBothPairs A B).flatMap
          (fun ab => constraintDrops ab.1 ab.2 ++ indexDrops ab.1 ab.2))).apply
          (((depOrder (toDropTables A B)).reverse).flatMap
            tableConstraintIndexDrops)).lookup j := by
        unfold stage1 phaseConstraintIndexDrops
        rw [apply_append]
    _ = (A.apply ((inBothPairs A B).flatMap
          (fun ab => constraintDrops ab.1 ab.2 ++ indexDrops ab.1 ab.2))).lookup j := h2
    _ = A.lookup j := h1
    _ = none := hj

theorem stage2_lookup_both (A B : Schema) (hA : A.WellFormed)
    {a b : Table} (ha : a ∈ A.tables) (hb : B.lookup a.key = some b) :
    (stage2 A B).lookup a.key = some (stage2Table a b) := by
  obtain ⟨hkeys, hwf, hfk⟩ := hA
  have hmem : (a, b) ∈ inBothPairs A B := mem_inBothPairs.mpr ⟨ha, hb⟩
  have h1 := lookup_apply_flatMapKeyed_mem (fun ab : Table × Table => ab.1.key)
      (fun ab => columnDrops ab.1 ab.2) (inBothPairs A B) (stage1 A B)
      (fun ab _ => omk_coldrops ab.1 ab.2) (inBothPairs_keys_pairwise B hkeys) hmem rfl
  calc (stage2 A B).lookup a.key
      = ((stage1 A B).lookup a.key).map (applyT (columnDrops a b)) := h1
    _ = some (applyT (columnDrops a b) (stage1Table a b)) := by
        rw [stage1_lookup_both A B ⟨hkeys, hwf, hfk⟩ ha hb]
        rfl
    _ = some (stage2Table a b) := by rw [applyT_coldrops a b (hwf a ha).1]

theorem stage2_lookup_drop (A B : Schema) (hA : A.WellFormed)
    {t0 : Table} (ht : t0 ∈ toDropTables A B) :
    (stage2 A B).lookup t0.key = some { t0 with constraints := [], indexes := [] } := by
  have ht0N : (B.lookup t0.key).isNone = true := (mem_toDrop.mp ht).2
  have h1 := lookup_apply_flatMapKeyed_none (fun ab : Table × Table => ab.1.key)
      (fun ab => columnDrops ab.1 ab.2) (inBothPairs A B) (stage1 A B) t0.key
      (fun ab _ => omk_coldrops ab.1 ab.2) (pair_key_ne_of_B_none ht0N)
  calc (stage2 A B).lookup t0.key
      = (stage1 A B).lookup t0.key := h1
    _ = some { t0 with constraints := [], indexes := [] } := stage1_lookup_drop A B hA ht

theorem stage2_lookup_none (A B : Schema) {j : TableKey} (hj : A.lookup j = none) :
    (stage2 A B).lookup j = none := by
  have h1 := lookup_apply_flatMapKeyed_none (fun ab : Table × Table => ab.1.key)
      (fun ab => columnDrops ab.1 ab.2) (inBothPairs A B) (stage1 A B) j
      (fun ab _ => omk_coldrops ab.1 ab.2)
      (fun ab hab => key_ne_of_A_none hj (mem_inBothPairs.mp hab).1)
  calc (stage2 A B).lookup j
      = (stage1 A B).lookup j := h1
    _ = none := stage1_lookup_none A B hj

/-! ### Stage characterization: phases 3 and 4 -/

theorem stage3_lookup_of_not_dropped (A B : Schema) {j : TableKey}
    (hj : (B.lookup j).isSome = true ∨ A.lookup j = none) :
    (stage3 A B).lookup j = (stage2 A B).lookup j := by
  unfold stage3
  rw [phaseTableDrops_eq, lookup_apply_dropTables]
  have hnot : j ∉ ((depOrder (toDropTables A B)).reverse).map (fun t => t.key) := by
    intro hmem
    rcases List.mem_map.mp hmem with ⟨t, ht, hkey⟩
    have htd := mem_orderedDropRev.mp ht
    rcases hj with hs | hn
    · have hN := (mem_toDrop.mp htd).2
      rw [hkey, Option.isNone_iff_eq_none] at hN
      rw [hN] at hs
      cases hs
    · exact key_ne_of_A_none hn (mem_toDrop.mp htd).1 hkey
  rw [if_neg hnot]

theorem stage3_lookup_drop (A B : Schema) {t0 : Table} (ht : t0 ∈ toDropTables A B) :
    (stage3 A B).lookup t0.key = none := by
  unfold stage3
  rw [phaseTableDrops_eq, lookup_apply_dropTables,
    if_pos (List.mem_map.mpr ⟨t0, mem_orderedDropRev.mpr ht, rfl⟩)]

theorem stage3_keys (A B : Schema) (hA : A.WellFormed) :
    keysOf (stage3 A B) = (keysOf A).filter (fun k => (B.lookup k).isSome) := by
  unfold stage3
  rw [phaseTableDrops_eq, keysOf_apply_dropTables, stage2_keys]
  apply List.filter_congr
  intro k hk
  by_cases hb : (B.lookup k).isSome = true
  · simp [hb]
    intro x hx
    exact drop_key_ne_of_B_some hb x (List.mem_reverse.mpr hx)
  · have hbf : (B.lookup k).isSome = false := by
      cases hx : (B.lookup k).isSome
      · rfl
      · exact absurd hx hb
    rcases List.mem_map.mp hk with ⟨t, htA, hkey⟩
    have htd : t ∈ toDropTables A B := by
      refine mem_toDrop.mpr ⟨htA, ?_⟩
      rw [hkey]
      cases hbo : B.lookup k with
      | none => rfl
      | some x => rw [hbo] at hbf; cases hbf
    simp [hbf]
    exact ⟨t, (depOrder_perm _).mem_iff.mpr htd, hkey⟩

theorem stage4_lookup_of_some (A B : Schema) {j : TableKey} {t : Table}
    (h : (stage3 A B).lookup j = some t) : (stage4 A B).lookup j = some t := by
  unfold stage4
  rw [phaseTableCreates_eq, lookup_apply_createTables, h]
  rfl

theorem stage4_lookup_create (A B : Schema) (hB : B.WellFormed)
    {bt : Table} (hbt : bt ∈ toCreateTables A B) :
    (stage4 A B).lookup bt.key = some (stripFKs bt) := by
  obtain ⟨hkeysB, _, _⟩ := hB
  have hAn : A.lookup bt.key = none :=
    Option.isNone_iff_eq_none.mp (mem_toCreate.mp hbt).2
  have h3 : (stage3 A B).lookup bt.key = none := by
    rw [stage3_lookup_of_not_dropped A B (Or.inr hAn)]
    exact stage2_lookup_none A B hAn
  have hfind : (depOrder (toCreateTables A B)).find? (fun t => t.key == bt.key) = some bt :=
    find?_fn_self (fun t : Table => t.key) (toCreate_keys_pairwise A hkeysB)
      (mem_orderedCreate.mpr hbt)
  have hfind2 : ((depOrder (toCreateTables A B)).map stripFKs).find?
      (fun t => t.key == bt.key) = some (stripFKs bt) := by
    calc ((depOrder (toCreateTables A B)).map stripFKs).find? (fun t => t.key == bt.key)
        = ((depOrder (toCreateTables A B)).find? (fun t => t.key == bt.key)).map stripFKs :=
          find?_map_keyed stripFKs (fun t : Table => t.key) (fun t => rfl)
            (depOrder (toCreateTables A B)) bt.key
      _ = some (stripFKs bt) := by rw [hfind]; rfl
  unfold stage4
  rw [phaseTableCreates_eq, lookup_apply_createTables, h3, Option.none_or, hfind2]

theorem stage4_lookup_dropped (A B : Schema) {t0 : Table} (ht : t0 ∈ toDropTables A B) :
    (stage4 A B).lookup t0.key = none := by
  have h3 := stage3_lookup_drop A B ht
  unfold stage4
  rw [phaseTableCreates_eq, lookup_apply_createTables, h3, Option.none_or,
    List.find?_eq_none]
  intro x hx
  rcases List.mem_map.mp hx with ⟨ct, hct, rfl⟩
  have hAn : A.lookup ct.key = none :=
    Option.isNone_iff_eq_none.mp (mem_toCreate.mp (mem_orderedCreate.mp hct)).2
  have hne := key_ne_of_A_none hAn (mem_toDrop.mp ht).1
  intro hbeq
  have hceq : ct.key = t0.key := by simpa [stripFKs] using hbeq
  exact hne hceq.symm

theorem stage4_keys (A B : Schema) (hA : A.WellFormed) :
    keysOf (stage4 A B) = (keysOf A).filter (fun k => (B.lookup k).isSome) ++
      (depOrder (toCreateTables A B)).map (fun t => t.key) := by
  unfold stage4
  rw [phaseTableCreates_eq, keysOf_apply_createTables, stage3_keys A B hA]
  congr 1
  rw [List.map_map]
  rfl

/-! ### Stage characterization: phases 5 and 6, and the final state -/

theorem stage5_lookup_both (A B : Schema) (hA : A.WellFormed)
    {a b : Table} (ha : a ∈ A.tables) (hb : B.lookup a.key = some b) :
    (stage5 A B).lookup a.key = some (stage5Table a b) := by
  obtain ⟨hkeys, hwf, hfk⟩ := hA
  have hmem : (a, b) ∈ inBothPairs A B := mem_inBothPairs.mpr ⟨ha, hb⟩
  have h1 := lookup_apply_flatMapKeyed_mem (fun ab : Table × Table => ab.1.key)
      (fun ab => columnAdds ab.1 ab.2 ++ columnAlters ab.1 ab.2) (inBothPairs A B)
      (stage4 A B) (fun ab _ => omk_addalters ab.1 ab.2)
      (inBothPairs_keys_pairwise B hkeys) hmem rfl
  have h4 : (stage4 A B).lookup a.key = some (stage2Table a b) := by
    apply stage4_lookup_of_some
    rw [stage3_lookup_of_not_dropped A B (Or.inl (by rw [hb]; rfl))]
    exact stage2_lookup_both A B ⟨hkeys, hwf, hfk⟩ ha hb
  calc (stage5 A B).lookup a.key
      = ((stage4 A B).lookup a.key).map (applyT (columnAdds a b ++ columnAlters a b)) := h1
    _ = some (applyT (columnAdds a b ++ columnAlters a b) (stage2Table a b)) := by
        rw [h4]
        rfl
    _ = some (stage5Table a b) := by rw [applyT_addalters]

theorem stage5_lookup_other (A B : Schema) {j : TableKey}
    (hj : (B.lookup j).isNone = true ∨ A.lookup j = none) :
    (stage5 A B).lookup j = (stage4 A B).lookup j := by
  refine lookup_apply_flatMapKeyed_none (fun ab : Table × Table => ab.1.key)
      (fun ab => columnAdds ab.1 ab.2 ++ columnAlters ab.1 ab.2) (inBothPairs A B)
      (stage4 A B) j (fun ab _ => omk_addalters ab.1 ab.2) ?_
  intro ab hab
  rcases hj with hn | hn
  · exact pair_key_ne_of_B_none hn ab hab
  · exact key_ne_of_A_none hn (mem_inBothPairs.mp hab).1

theorem stage6_lookup_both (A B : Schema) (hA : A.WellFormed)
    {a b : Table} (ha : a ∈ A.tables) (hb : B.lookup a.key = some b) :
    (stage6 A B).lookup a.key = some (mergeTables a b) := by
  obtain ⟨hkeys, hwf, hfk⟩ := hA
  have hmem : (a, b) ∈ inBothPairs A B := mem_inBothPairs.mpr ⟨ha, hb⟩
  have h1 := lookup_apply_flatMapKeyed_mem (fun ab : Table × Table => ab.1.key)
      (fun ab => constraintAdds ab.1 ab.2 ++ indexAdds ab.1 ab.2) (inBothPairs A B)
      (stage5 A B) (fun ab _ => omk_ciadds ab.1 ab.2)
      (inBothPairs_keys_pairwise B hkeys) hmem rfl
  have h2 := lookup_apply_flatMapKeyed_none (fun t : Table => t.key)
      (fun t => (tableFKs t).map (fun c => DDLOperation.addConstraint t.key c))
      (depOrder (toCreateTables A B))
      ((stage5 A B).apply ((inBothPairs A B).flatMap
        (fun ab => constraintAdds ab.1 ab.2 ++ indexAdds ab.1 ab.2))) a.key
      (fun t _ => omk_fkadds t) ?_
  · calc (stage6 A B).lookup a.key
        = (((stage5 A B).apply ((inBothPairs A B).flatMap
            (fun ab => constraintAdds ab.1 ab.2 ++ indexAdds ab.1 ab.2))).apply
            ((depOrder (toCreateTables A B)).flatMap
              (fun t => (tableFKs t).map (fun c => DDLOperation.addConstraint t.key c)))).lookup
            a.key := by
          unfold stage6 phaseConstraintIndexAdds
          rw [apply_append]
      _ = ((stage5 A B).apply ((inBothPairs A B).flatMap
            (fun ab => constraintAdds ab.1 ab.2 ++ indexAdds ab.1 ab.2))).lookup a.key := h2
      _ = ((stage5 A B).lookup a.key).map (applyT (constraintAdds a b ++ indexAdds a b)) := h1
      _ = some (applyT (constraintAdds a b ++ indexAdds a b) (stage5Table a b)) := by
          rw [stage5_lookup_both A B ⟨hkeys, hwf, hfk⟩ ha hb]
          rfl
      _ = some (mergeTables a b) := by rw [applyT_ciadds]
  · intro t ht heq
    have hAn : A.lookup t.key = none :=
      Option.isNone_iff_eq_none.mp (mem_toCreate.mp (mem_orderedCreate.mp ht)).2
    exact key_ne_of_A_none hAn ha heq.symm

theorem stage6_lookup_create (A B : Schema) (hB : B.WellFormed)
    {bt : Table} (hbt : bt ∈ toCreateTables A B) :
    (stage6 A B).lookup bt.key = some (createMergedTable bt) := by
  have hAn : A.lookup bt.key = none :=
    Option.isNone_iff_eq_none.mp (mem_toCreate.mp hbt).2
  have h5 : (stage5 A B).lookup bt.key = some (stripFKs bt) := by
    rw [stage5_lookup_other A B (Or.inr hAn)]
    exact stage4_lookup_create A B hB hbt
  have h2a := lookup_apply_flatMapKeyed_none (fun ab : Table × Table => ab.1.key)
      (fun ab => constraintAdds ab.1 ab.2 ++ indexAdds ab.1 ab.2) (inBothPairs A B)
      (stage5 A B) bt.key (fun ab _ => omk_ciadds ab.1 ab.2)
      (fun ab hab => key_ne_of_A_none hAn (mem_inBothPairs.mp hab).1)
  have h2b := lookup_apply_flatMapKeyed_mem (fun t : Table => t.key)
      (fun t => (tableFKs t).map (fun c => DDLOperation.addConstraint t.key c))
      (depOrder (toCreateTables A B))
      ((stage5 A B).apply ((inBothPairs A B).flatMap
        (fun ab => constraintAdds ab.1 ab.2 ++ indexAdds ab.1 ab.2)))
      (fun t _ => omk_fkadds t) (toCreate_keys_pairwise A hB.1)
      (mem_orderedCreate.mpr hbt) rfl
  calc (stage6 A B).lookup bt.key
      = (((stage5 A B).apply ((inBothPairs A B).flatMap
          (fun ab => constraintAdds ab.1 ab.2 ++ indexAdds ab.1 ab.2))).apply
          ((depOrder (toCreateTables A B)).flatMap
            (fun t => (tableFKs t).map (fun c => DDLOperation.addConstraint t.key c)))).lookup
          bt.key := by
        unfold stage6 phaseConstraintIndexAdds
        rw [apply_append]
    _ = (((stage5 A B).apply ((inBothPairs A B).flatMap
          (fun ab => constraintAdds ab.1 ab.2 ++ indexAdds ab.1 ab.2))).lookup bt.key).map
          (applyT ((tableFKs bt).map (fun c => DDLOperation.addConstraint bt.key c))) := h2b
    _ = ((stage5 A B).lookup bt.key).map
          (applyT ((tableFKs bt).map (fun c => DDLOperation.addConstraint bt.key c))) := by
        rw [h2a]
    _ = some (applyT ((tableFKs bt).map (fun c => DDLOperation.addConstraint bt.key c))
          (stripFKs bt)) := by
        rw [h5]
        rfl
    _ = some (createMergedTable bt) := by rw [applyT_fkadds]

theorem stage6_lookup_dropped (A B : Schema) {t0 : Table} (ht : t0 ∈ toDropTables A B) :
    (stage6 A B).lookup t0.key = none := by
  have h5 : (stage5 A B).lookup t0.key = none := by
    rw [stage5_lookup_other A B (Or.inl (mem_toDrop.mp ht).2)]
    exact stage4_lookup_dropped A B ht
  have h2a := lookup_apply_flatMapKeyed_none (fun ab : Table × Table => ab.1.key)
      (fun ab => constraintAdds ab.1 ab.2 ++ indexAdds ab.1 ab.2) (inBothPairs A B)
      (stage5 A B) t0.key (fun ab _ => omk_ciadds ab.1 ab.2)
      (pair_key_ne_of_B_none (mem_toDrop.mp ht).2)
  have h2b := lookup_apply_flatMapKeyed_none (fun t : Table => t.key)
      (fun t => (tableFKs t).map (fun c => DDLOperation.addConstraint t.key c))
      (depOrder (toCreateTables A B))
      ((stage5 A B).apply ((inBothPairs A B).flatMap
        (fun ab => constraintAdds ab.1 ab.2 ++ indexAdds ab.1 ab.2))) t0.key
      (fun t _ => omk_fkadds t) ?_
  · calc (stage6 A B).lookup t0.key
        = (((stage5 A B).apply ((inBothPairs A B).flatMap
            (fun ab => constraintAdds ab.1 ab.2 ++ indexAdds ab.1 ab.2))).apply
            ((depOrder (toCreateTables A B)).flatMap
              (fun t => (tableFKs t).map (fun c => DDLOperation.addConstraint t.key c)))).lookup
            t0.key := by
          unfold stage6 phaseConstraintIndexAdds
          rw [apply_append]
      _ = ((stage5 A B).apply ((inBothPairs A B).flatMap
            (fun ab => constraintAdds ab.1 ab.2 ++ indexAdds ab.1 ab.2))).lookup t0.key := h2b
      _ = (stage5 A B).lookup t0.key := h2a
      _ = none := h5
  · intro t htc heq
    have hAn : A.lookup t.key = none :=
      Option.isNone_iff_eq_none.mp (mem_toCreate.mp (mem_orderedCreate.mp htc)).2
    exact key_ne_of_A_none hAn (mem_toDrop.mp ht).1 heq.symm

theorem stage6_keys (A B : Schema) (hA : A.WellFormed) :
    keysOf (stage6 A B) = (keysOf A).filter (fun k => (B.lookup k).isSome) ++
      (depOrder (toCreateTables A B)).map (fun t => t.key) := by
  unfold stage6 stage5
  rw [keysOf_apply_modify _ _ (phase6_modify A B),
    keysOf_apply_modify _ _ (phase5_modify A B), stage4_keys A B hA]

theorem apply_diff_eq_stage6 (A B : Schema) : A.apply (A.diff B) = stage6 A B := by
  unfold Schema.diff stage6 stage5 stage4 stage3 stage2 stage1
  rw [apply_append, apply_append, apply_append, apply_append, apply_append]

/-! ### Net effect of the alter operations on columns -/

theorem colUpd_name (op : DDLOperation) (c : Column) : (colUpd op c).name = c.name := by
  cases op <;> first | rfl | (simp only [colUpd]; split <;> rfl)

theorem netFold_name (l : List DDLOperation) (c : Column) : (netFold l c).name = c.name := by
  induction l generalizing c with
  | nil => rfl
  | cons op l ih => exact (ih (colUpd op c)).trans (colUpd_name op c)

theorem netFold_append (l₁ l₂ : List DDLOperation) (c : Column) :
    netFold (l₁ ++ l₂) c = netFold l₂ (netFold l₁ c) :=
  List.foldl_append _ _ _ _

theorem colUpd_noop {op : DDLOperation} {x : Column} (h : alterColName op ≠ x.name) :
    colUpd op x = x := by
  cases op <;> first | rfl | (simp only [colUpd]; rw [if_neg (fun hc => h hc.symm)])

theorem netFold_noop {l : List DDLOperation} {x : Column}
    (h : ∀ op ∈ l, alterColName op ≠ x.name) : netFold l x = x := by
  induction l with
  | nil => rfl
  | cons op l ih =>
    have h1 : netFold (op :: l) x = netFold l (colUpd op x) := rfl
    rw [h1, colUpd_noop (h op (List.mem_cons_self _ _))]
    exact ih (fun o ho => h o (List.mem_cons_of_mem _ ho))

theorem netFold_flatMap_eval (g : Column → List DDLOperation) (bcols : List Column)
    (hb : bcols.Pairwise (fun u v => u.name ≠ v.name))
    (hg : ∀ d, ∀ op ∈ g d, alterColName op = d.name)
    {c : Column} (hc : c ∈ bcols) {x : Column} (hx : x.name = c.name) :
    netFold (bcols.flatMap g) x = netFold (g c) x := by
  induction bcols with
  | nil => cases hc
  | cons d ds ih =>
    have hp := List.pairwise_cons.mp hb
    have happ : netFold ((d :: ds).flatMap g) x
        = netFold (ds.flatMap g) (netFold (g d) x) := by
      rw [List.flatMap_cons, netFold_append]
    rcases List.mem_cons.mp hc with rfl | hc2
    · rw [happ]
      refine netFold_noop ?_
      intro op hop
      rcases List.mem_flatMap.mp hop with ⟨e, he, hope⟩
      rw [hg e op hope, netFold_name, hx]
      exact (hp.1 e he).symm
    · have hdx : ∀ op ∈ g d, alterColName op ≠ x.name := by
        intro op hop
        rw [hg d op hop, hx]
        exact hp.1 c hc2
      rw [happ, netFold_noop hdx]
      exact ih hp.2 hc2

theorem netFold_altersFor {a : Table} {c c0 : Column}
    (hfind : a.columns.find? (fun d => d.name == c.name) = some c0) :
    (netFold (altersFor a c) c0).ty = c.ty ∧
    (netFold (altersFor a c) c0).nullable = c.nullable := by
  have hname : c0.name = c.name := by simpa using List.find?_some hfind
  have haf : altersFor a c =
      (if (c0.ty == c.ty) = true then [] else [DDLOperation.alterColumnType a.key c.name c.ty]) ++
      (if (c0.nullable == c.nullable) = true then []
        else [DDLOperation.alterColumnNullability a.key c.name c.nullable]) := by
    unfold altersFor
    rw [hfind]
  rw [haf]
  by_cases hty : (c0.ty == c.ty) = true <;> by_cases hnb : (c0.nullable == c.nullable) = true
  · rw [if_pos hty, if_pos hnb]
    exact ⟨by simpa using hty, by simpa using hnb⟩
  · rw [if_pos hty, if_neg hnb]
    have hred : netFold
        ([] ++ [DDLOperation.alterColumnNullability a.key c.name c.nullable]) c0
        = { c0 with nullable := c.nullable } := by
      show colUpd (DDLOperation.alterColumnNullability a.key c.name c.nullable) c0 = _
      simp [colUpd, hname]
    rw [hred]
    exact ⟨by simpa using hty, rfl⟩
  · rw [if_neg hty, if_pos hnb]
    have hred : netFold ([DDLOperation.alterColumnType a.key c.name c.ty] ++ []) c0
        = { c0 with ty := c.ty } := by
      show colUpd (DDLOperation.alterColumnType a.key c.name c.ty) c0 = _
      simp [colUpd, hname]
    rw [hred]
    exact ⟨rfl, by simpa using hnb⟩
  · rw [if_neg hty, if_neg hnb]
    have hred : netFold ([DDLOperation.alterColumnType a.key c.name c.ty] ++
        [DDLOperation.alterColumnNullability a.key c.name c.nullable]) c0
        = { { c0 with ty := c.ty } with nullable := c.nullable } := by
      show colUpd (DDLOperation.alterColumnNullability a.key c.name c.nullable)
        (colUpd (DDLOperation.alterColumnType a.key c.name c.ty) c0) = _
      simp [colUpd, hname]
    rw [hred]
    exact ⟨rfl, rfl⟩

theorem netColUpd_sig {a b : Table} {c c0 : Column}
    (hbcols : b.columns.Pairwise (fun u v => u.name ≠ v.name))
    (hc : c ∈ b.columns)
    (hfind : a.columns.find? (fun d => d.name == c.name) = some c0) :
    (netColUpd a b c0).ty = c.ty ∧ (netColUpd a b c0).nullable = c.nullable := by
  have hname : c0.name = c.name := by simpa using List.find?_some hfind
  have heval : netColUpd a b c0 = netFold (altersFor a c) c0 := by
    unfold netColUpd columnAlters
    exact netFold_flatMap_eval (altersFor a) b.columns hbcols
      (fun d op hop => (altersFor_shape a d op hop).2.1) hc hname
  rw [heval]
  exact netFold_altersFor hfind

theorem netColUpd_id {a b : Table} {c : Column}
    (hbcols : b.columns.Pairwise (fun u v => u.name ≠ v.name))
    (hc : c ∈ b.columns)
    (hfind : a.columns.find? (fun d => d.name == c.name) = none) :
    netColUpd a b c = c := by
  have heval : netColUpd a b c = netFold (altersFor a c) c := by
    unfold netColUpd columnAlters
    exact netFold_flatMap_eval (altersFor a) b.columns hbcols
      (fun d op hop => (altersFor_shape a d op hop).2.1) hc rfl
  rw [heval]
  unfold altersFor
  rw [hfind]
  rfl

/-! ### The merged tables match the desired tables -/

theorem find?_strip_partition (l : List Constraint)
    (h : l.Pairwise (fun u v => u.name ≠ v.name)) {c : Constraint} (hc : c ∈ l) :
    (l.filter (fun d => !(d.isFK)) ++ l.filter (fun d => d.isFK)).find?
      (fun d => d.name == c.name) = some c := by
  rw [List.find?_append]
  cases hfk : c.isFK with
  | false =>
    have hcm : c ∈ l.filter (fun d => !(d.isFK)) :=
      List.mem_filter.mpr ⟨hc, by simp [hfk]⟩
    rw [find?_name_constraint (List.Pairwise.sublist (List.filter_sublist _) h) hcm]
    rfl
  | true =>
    have hnone : (l.filter (fun d => !(d.isFK))).find? (fun d => d.name == c.name) = none := by
      rw [List.find?_eq_none]
      intro d hd hbeq
      have hdl := (List.mem_filter.mp hd).1
      have hdfk := (List.mem_filter.mp hd).2
      have hdc : d = c := fn_inj_of_pairwise (fun u : Constraint => u.name) h hdl hc
        (by simpa using hbeq)
      subst hdc
      rw [hfk] at hdfk
      cases hdfk
    rw [hnone, Option.none_or]
    exact find?_name_constraint (List.Pairwise.sublist (List.filter_sublist _) h)
      (List.mem_filter.mpr ⟨hc, hfk⟩)

theorem createMergedTable_matches (bt : Table) (hw : bt.wf) :
    TableMatches (createMergedTable bt) bt := by
  obtain ⟨hc, hcn, hin, _⟩ := hw
  refine ⟨?_, ?_, ?_, ?_, ?_, ?_⟩
  · intro c hc2
    rw [find?_name_col hc hc2]
    rfl
  · intro c hc2
    exact ⟨c, find?_name_col hc hc2, rfl, rfl⟩
  · intro c hc2
    have hcm : c ∈ bt.constraints := by
      rcases List.mem_append.mp hc2 with h | h
      · exact (List.mem_filter.mp h).1
      · exact (List.mem_filter.mp h).1
    exact find?_name_constraint hcn hcm
  · intro c hc2
    exact find?_strip_partition bt.constraints hcn hc2
  · intro i hi
    exact find?_name_index hin hi
  · intro i hi
    exact find?_name_index hin hi

theorem mergeTables_matches (a b : Table) (hwa : a.wf) (hwb : b.wf) :
    TableMatches (mergeTables a b) b := by
  obtain ⟨hac, hacn, hain, _⟩ := hwa
  obtain ⟨hbc, hbcn, hbin, _⟩ := hwb
  refine ⟨?_, ?_, ?_, ?_, ?_, ?_⟩
  · intro c hcm
    rcases List.mem_map.mp hcm with ⟨y, hy, rfl⟩
    have hyn : (netColUpd a b y).name = y.name := netFold_name _ _
    rcases List.mem_append.mp hy with hk | hadd
    · have hkept := (List.mem_filter.mp hk).2
      unfold columnKept at hkept
      rw [hyn]
      exact hkept
    · have hyb := (List.mem_filter.mp hadd).1
      rw [hyn]
      exact find?_isSome_mem hyb (by simp)
  · intro c hc
    cases hfind : a.columns.find? (fun d => d.name == c.name) with
    | some c0 =>
      have hc0a : c0 ∈ a.columns := List.mem_of_find?_eq_some hfind
      have hc0n : c0.name = c.name := by simpa using List.find?_some hfind
      have hkept : columnKept b c0 = true := by
        unfold columnKept
        exact find?_isSome_mem hc (by simp [hc0n])
      have hc0k : c0 ∈ keptColumns a b := List.mem_filter.mpr ⟨hc0a, hkept⟩
      have hkfind : (keptColumns a b).find? (fun d => d.name == c.name) = some c0 := by
        have hpair : (keptColumns a b).Pairwise (fun u v => u.name ≠ v.name) :=
          List.Pairwise.sublist (List.filter_sublist _) hac
        have hf := find?_name_col hpair hc0k
        rw [hc0n] at hf
        exact hf
      have hmfind : ((keptColumns a b ++ addedColumns a b).map (netColUpd a b)).find?
          (fun d => d.name == c.name) = some (netColUpd a b c0) := by
        rw [List.map_append, List.find?_append]
        have h1 : ((keptColumns a b).map (netColUpd a b)).find? (fun d => d.name == c.name)
            = some (netColUpd a b c0) := by
          calc ((keptColumns a b).map (netColUpd a b)).find? (fun d => d.name == c.name)
              = ((keptColumns a b).find? (fun d => d.name == c.name)).map (netColUpd a b) :=
                find?_map_keyed (netColUpd a b) (fun u : Column => u.name)
                  (fun x => netFold_name _ _) (keptColumns a b) c.name
            _ = some (netColUpd a b c0) := by rw [hkfind]; rfl
        rw [h1]
        rfl
      exact ⟨netColUpd a b c0, hmfind, (netColUpd_sig hbc hc hfind).1,
        (netColUpd_sig hbc hc hfind).2⟩
    | none =>
      have hcadd : c ∈ addedColumns a b := by
        refine List.mem_filter.mpr ⟨hc, ?_⟩
        unfold columnKept
        rw [hfind]
        rfl
      have hnone : ((keptColumns a b).map (netColUpd a b)).find?
          (fun d => d.name == c.name) = none := by
        rw [List.find?_eq_none]
        intro x hx hbeq
        rcases List.mem_map.mp hx with ⟨y, hy, rfl⟩
        have hyA : y ∈ a.columns := (List.mem_filter.mp hy).1
        have hyn : y.name = c.name := by
          have hnm : (netColUpd a b y).name = y.name := netFold_name _ _
          rw [hnm] at hbeq
          simpa using hbeq
        have hsome : (a.columns.find? (fun d => d.name == c.name)).isSome = true :=
          find?_isSome_mem hyA (by simp [hyn])
        rw [hfind] at hsome
        cases hsome
      have haddfind : (addedColumns a b).find? (fun d => d.name == c.name) = some c := by
        have hpair : (addedColumns a b).Pairwise (fun u v => u.name ≠ v.name) :=
          List.Pairwise.sublist (List.filter_sublist _) hbc
        exact find?_name_col hpair hcadd
      have hmfind : ((keptColumns a b ++ addedColumns a b).map (netColUpd a b)).find?
          (fun d => d.name == c.name) = some (netColUpd a b c) := by
        rw [List.map_append, List.find?_append, hnone, Option.none_or]
        calc ((addedColumns a b).map (netColUpd a b)).find? (fun d => d.name == c.name)
            = ((addedColumns a b).find? (fun d => d.name == c.name)).map (netColUpd a b) :=
              find?_map_keyed (netColUpd a b) (fun u : Column => u.name)
                (fun x => netFold_name _ _) (addedColumns a b) c.name
          _ = some (netColUpd a b c) := by rw [haddfind]; rfl
      rw [netColUpd_id hbc hc hfind] at hmfind
      exact ⟨c, hmfind, rfl, rfl⟩
  · intro c hcm
    exact merged_find_in_b (fun c : Constraint => c.name) hbcn c hcm
  · intro c hcb
    exact merged_find_self (fun c : Constraint => c.name) hacn hbcn c hcb
  · intro i him
    exact merged_find_in_b (fun i : Index => i.name) hbin i him
  · intro i hib
    exact merged_find_self (fun i : Index => i.name) hain hbin i hib

/-! ### C7: applying the diff reaches the desired snapshot -/

theorem stage6_keys_pairwise (A B : Schema) (hA : A.WellFormed) (hB : B.WellFormed) :
    (keysOf (stage6 A B)).Pairwise (fun a b => a ≠ b) := by
  rw [stage6_keys A B hA]
  refine List.pairwise_append.mpr ⟨?_, ?_, ?_⟩
  · exact List.Pairwise.sublist (List.filter_sublist _) hA.1
  · exact List.pairwise_map.mpr (toCreate_keys_pairwise A hB.1)
  · intro k hk k2 hk2
    have hkA : k ∈ keysOf A := (List.mem_filter.mp hk).1
    rcases List.mem_map.mp hk2 with ⟨t, ht, rfl⟩
    have htc : t ∈ toCreateTables A B := mem_orderedCreate.mp ht
    have hAn : (A.lookup t.key).isNone = true := (mem_toCreate.mp htc).2
    intro heq
    have hs := (lookup_isSome_iff A k).mpr hkA
    rw [heq, Option.isNone_iff_eq_none.mp hAn] at hs
    simp at hs

/-- C7: diff symmetry sanity — for every pair of well-formed snapshots A and B,
applying diff(A, B) to A yields a schema structurally equal to B, witnessed by
diff(apply(A, diff(A, B)), B) = []. -/
theorem apply_diff_roundtrip (A B : Schema) (hA : A.WellFormed) (hB : B.WellFormed) :
    (A.apply (A.diff B)).diff B = [] := by
  rw [apply_diff_eq_stage6]
  have hXkeys := stage6_keys_pairwise A B hA hB
  refine diff_eq_nil (stage6 A B) B ?_ ?_
  · intro x hx
    have hxl : (stage6 A B).lookup x.key = some x := mem_lookup_self _ hXkeys hx
    have hxk : x.key ∈ keysOf (stage6 A B) := List.mem_map_of_mem _ hx
    rw [stage6_keys A B hA] at hxk
    rcases List.mem_append.mp hxk with hboth | hcre
    · have hkA : x.key ∈ keysOf A := (List.mem_filter.mp hboth).1
      have hBs : (B.lookup x.key).isSome = true := by
        have := (List.mem_filter.mp hboth).2
        simpa using this
      rcases List.mem_map.mp hkA with ⟨a, ha, hak⟩
      rcases Option.isSome_iff_exists.mp hBs with ⟨b, hb⟩
      have hb2 : B.lookup a.key = some b := by rw [hak]; exact hb
      have hl := stage6_lookup_both A B hA ha hb2
      rw [hak] at hl
      rw [hxl] at hl
      have hx6 : x = mergeTables a b := Option.some.inj hl
      have hbw : b.wf := hB.2.1 b (lookup_mem hb2).1
      refine ⟨b, hb, ?_⟩
      rw [hx6]
      exact mergeTables_matches a b (hA.2.1 a ha) hbw
    · rcases List.mem_map.mp hcre with ⟨t, ht, htk⟩
      have htc : t ∈ toCreateTables A B := mem_orderedCreate.mp ht
      have hl := stage6_lookup_create A B hB htc
      rw [htk, hxl] at hl
      have hx6 : x = createMergedTable t := Option.some.inj hl
      have htB : t ∈ B.tables := (mem_toCreate.mp htc).1
      have hbl : B.lookup x.key = some t := by
        rw [← htk]
        exact mem_lookup_self B hB.1 htB
      refine ⟨t, hbl, ?_⟩
      rw [hx6]
      exact createMergedTable_matches t (hB.2.1 t htB)
  · intro bt hbt
    cases hla : A.lookup bt.key with
    | some a =>
      have haA : a ∈ A.tables := (lookup_mem hla).1
      have hak : a.key = bt.key := (lookup_mem hla).2
      have hbl : B.lookup a.key = some bt := by
        rw [hak]
        exact mem_lookup_self B hB.1 hbt
      have hl := stage6_lookup_both A B hA haA hbl
      rw [hak] at hl
      rw [hl]
      rfl
    | none =>
      have htc : bt ∈ toCreateTables A B :=
        mem_toCreate.mpr ⟨hbt, by rw [hla]; rfl⟩
      rw [stage6_lookup_create A B hB htc]
      rfl

theorem apply_diff_roundtrip_witness :
    sampleA.WellFormed ∧ sampleB.WellFormed ∧
      (sampleA.apply (sampleA.diff sampleB)).diff sampleB = [] :=
  ⟨by decide, by decide, apply_diff_roundtrip sampleA sampleB (by decide) (by decide)⟩

/-! ### C3: foreign-key validity along every prefix of the diff -/

theorem fkDeps_mem {t : Table} {d : TableKey} :
    d ∈ fkDeps t ↔ ∃ c ∈ t.constraints, d ∈ constraintDeps c := by
  simp [fkDeps, List.mem_flatMap]

theorem constraintDeps_eq_nil {c : Constraint} (h : c.isFK = false) :
    constraintDeps c = [] := by
  rcases c with ⟨n, cdef⟩
  cases cdef <;> first | rfl | exact Bool.noConfusion h

theorem lookup_modify_isSome {s : Schema} {k : TableKey} {f : Table → Table}
    (hf : ∀ t, (f t).key = t.key) {j : TableKey}
    (h : (s.lookup j).isSome = true) : ((s.modifyTable k f).lookup j).isSome = true := by
  rw [lookup_isSome_iff] at h ⊢
  rw [keysOf_modifyTable s k f hf]
  exact h

theorem fkTableValid_modify (s : Schema) (k : TableKey) (f : Table → Table)
    (hfk : ∀ t, (f t).key = t.key)
    (hfd : ∀ t, ∀ d ∈ fkDeps (f t), d ∈ fkDeps t)
    (hs : s.fkTableValid) : (s.modifyTable k f).fkTableValid := by
  intro t' ht' d hd
  have ht2 : t' ∈ s.tables.map (fun t => if t.key = k then f t else t) := ht'
  rcases List.mem_map.mp ht2 with ⟨t, ht, rfl⟩
  have hdt : d ∈ fkDeps t := by
    by_cases h : t.key = k
    · rw [if_pos h] at hd
      exact hfd t d hd
    · rw [if_neg h] at hd
      exact hd
  exact lookup_modify_isSome hfk (hs t ht d hdt)

theorem fkTableValid_cidrop {s : Schema} {op : DDLOperation}
    (hop : isConstraintIndexDrop op = true) (hs : s.fkTableValid) :
    (applyOp s op).fkTableValid := by
  cases op
  case dropConstraint k n =>
    refine fkTableValid_modify s k _ (modFn_key _) ?_ hs
    intro t d hd
    rcases fkDeps_mem.mp hd with ⟨c, hc, hdc⟩
    exact fkDeps_mem.mpr ⟨c, (List.mem_filter.mp hc).1, hdc⟩
  case dropIndex k n =>
    exact fkTableValid_modify s k _ (modFn_key _) (fun t d hd => hd) hs
  all_goals exact Bool.noConfusion hop

theorem fkTableValid_coldrop {s : Schema} {op : DDLOperation}
    (hop : isColumnDrop op = true) (hs : s.fkTableValid) : (applyOp s op).fkTableValid := by
  cases op
  case dropColumn k n =>
    exact fkTableValid_modify s k _ (modFn_key _) (fun t d hd => hd) hs
  all_goals exact Bool.noConfusion hop

theorem fkTableValid_coladdalter {s : Schema} {op : DDLOperation}
    (hop : isColumnAddAlter op = true) (hs : s.fkTableValid) : (applyOp s op).fkTableValid := by
  cases op
  case addColumn k c =>
    exact fkTableValid_modify s k _ (modFn_key _) (fun t d hd => hd) hs
  case alterColumnType k n ty =>
    exact fkTableValid_modify s k _ (modFn_key _) (fun t d hd => hd) hs
  case alterColumnNullability k n nb =>
    exact fkTableValid_modify s k _ (modFn_key _) (fun t d hd => hd) hs
  all_goals exact Bool.noConfusion hop

theorem constraintsDeclaredIn_dropTable (B s : Schema) (k : TableKey)
    (h : constraintsDeclaredIn B s) : constraintsDeclaredIn B (applyOp s (.dropTable k)) := by
  intro t ht c hc
  have ht2 : t ∈ s.tables := (List.mem_filter.mp ht).1
  exact h t ht2 c hc

theorem fkTableValid_dropTable {B s : Schema} {k : TableKey}
    (hBfk : B.fkTableValid) (hBk : (B.lookup k).isNone = true)
    (hdecl : constraintsDeclaredIn B s) (hs : s.fkTableValid) :
    (applyOp s (.dropTable k)).fkTableValid := by
  intro t ht d hd
  have htS : t ∈ s.tables := (List.mem_filter.mp ht).1
  rcases fkDeps_mem.mp hd with ⟨c, hc, hdc⟩
  rcases hdecl t htS c hc with ⟨bt, hbt, hbk, hcb⟩
  have hBd : (B.lookup d).isSome = true := hBfk bt hbt d (fkDeps_mem.mpr ⟨c, hcb, hdc⟩)
  have hdk : d ≠ k := by
    intro heq
    rw [heq, Option.isNone_iff_eq_none.mp hBk] at hBd
    simp at hBd
  rw [lookup_applyOp_dropTable, if_neg hdk]
  exact hs t htS d hd

theorem fkTableValid_createStrip {s : Schema} (bt : Table) (hs : s.fkTableValid) :
    (applyOp s (.createTable (stripFKs bt))).fkTableValid := by
  intro t ht d hd
  have htm : t ∈ s.tables ++ [stripFKs bt] := ht
  rcases List.mem_append.mp htm with htS | htN
  · have hsd := hs t htS d hd
    rw [lookup_applyOp_createTable]
    cases hl : s.lookup d with
    | none => rw [hl] at hsd; simp at hsd
    | some u => rfl
  · have ht3 : t = stripFKs bt := by simpa using htN
    rw [ht3] at hd
    rcases fkDeps_mem.mp hd with ⟨c, hc, hdc⟩
    have hcf : c.isFK = false := by
      have h2 := (List.mem_filter.mp hc).2
      simpa using h2
    rw [constraintDeps_eq_nil hcf] at hdc
    cases hdc

theorem fkTableValid_addConstraint {B s : Schema} {k : TableKey} {c : Constraint}
    (hBfk : B.fkTableValid) (hdecl : ∃ bt ∈ B.tables, c ∈ bt.constraints)
    (hkp : keysPresentIn B s) (hs : s.fkTableValid) :
    (applyOp s (.addConstraint k c)).fkTableValid := by
  intro t' ht' d hd
  have ht2 : t' ∈ s.tables.map
      (fun t => if t.key = k then modFn (.addConstraint k c) t else t) := ht'
  have hsd : (s.lookup d).isSome = true := by
    rcases List.mem_map.mp ht2 with ⟨t, ht, htt⟩
    rw [← htt] at hd
    by_cases hk : t.key = k
    · rw [if_pos hk] at hd
      rcases fkDeps_mem.mp hd with ⟨c2, hc2, hdc⟩
      have hc2m : c2 ∈ t.constraints ++ [c] := hc2
      rcases List.mem_append.mp hc2m with hc2t | hc2c
      · exact hs t ht d (fkDeps_mem.mpr ⟨c2, hc2t, hdc⟩)
      · have hc2e : c2 = c := by simpa using hc2c
        subst hc2e
        rcases hdecl with ⟨bt, hbt, hcb⟩
        exact hkp d (hBfk bt hbt d (fkDeps_mem.mpr ⟨c2, hcb, hdc⟩))
    · rw [if_neg hk] at hd
      exact hs t ht d hd
  exact lookup_modify_isSome (modFn_key _) hsd

theorem fkTableValid_createIndex {s : Schema} {k : TableKey} {i : Index}
    (hs : s.fkTableValid) : (applyOp s (.createIndex k i)).fkTableValid :=
  fkTableValid_modify s k _ (modFn_key _) (fun t d hd => hd) hs

theorem keysPresentIn_modify {B s : Schema} {op : DDLOperation} (hop : isModify op = true)
    (h : keysPresentIn B s) : keysPresentIn B (applyOp s op) := by
  intro k hk
  have h2 := h k hk
  rw [lookup_isSome_iff] at h2 ⊢
  rw [keysOf_applyOp_modify s op hop]
  exact h2

theorem stage2_constraintsDeclared (A B : Schema) (hA : A.WellFormed) :
    constraintsDeclaredIn B (stage2 A B) := by
  intro t ht c hc
  have hkeys2 : (keysOf (stage2 A B)).Pairwise (fun a b => a ≠ b) := by
    rw [stage2_keys]
    exact hA.1
  have hlt : (stage2 A B).lookup t.key = some t := mem_lookup_self _ hkeys2 ht
  have htk : t.key ∈ keysOf (stage2 A B) := List.mem_map_of_mem _ ht
  rw [stage2_keys] at htk
  rcases List.mem_map.mp htk with ⟨a, ha, hak⟩
  cases hb : B.lookup a.key with
  | some b =>
    have h2 := stage2_lookup_both A B hA ha hb
    rw [hak, hlt] at h2
    have ht2 : t = stage2Table a b := Option.some.inj h2
    have hcc : c ∈ keptConstraints a b := by rw [ht2] at hc; exact hc
    have hkb := (List.mem_filter.mp hcc).2
    have hcb : c ∈ b.constraints := (keptBy_mem (fun c : Constraint => c.name) hkb).1
    exact ⟨b, (lookup_mem hb).1, (lookup_mem hb).2.trans hak, hcb⟩
  | none =>
    have htd : a ∈ toDropTables A B := mem_toDrop.mpr ⟨ha, by rw [hb]; rfl⟩
    have h2 := stage2_lookup_drop A B hA htd
    rw [← hak] at hlt
    rw [hlt] at h2
    have ht2 : t = { a with constraints := [], indexes := [] } := Option.some.inj h2
    rw [ht2] at hc
    cases hc

theorem stage4_keysPresent (A B : Schema) (hA : A.WellFormed) :
    keysPresentIn B (stage4 A B) := by
  intro k hk
  rw [lookup_isSome_iff, stage4_keys A B hA]
  rcases Option.isSome_iff_exists.mp hk with ⟨b, hb⟩
  have hbB : b ∈ B.tables := (lookup_mem hb).1
  have hbk : b.key = k := (lookup_mem hb).2
  cases hla : A.lookup k with
  | some a =>
    refine List.mem_append.mpr (Or.inl (List.mem_filter.mpr ⟨?_, ?_⟩))
    · have hak : a.key = k := (lookup_mem hla).2
      rw [← hak]
      exact List.mem_map_of_mem _ (lookup_mem hla).1
    · simp [hb]
  | none =>
    refine List.mem_append.mpr (Or.inr ?_)
    have hbc : b ∈ toCreateTables A B := mem_toCreate.mpr ⟨hbB, by rw [hbk, hla]; rfl⟩
    have hbd : b ∈ depOrder (toCreateTables A B) := mem_orderedCreate.mpr hbc
    rw [← hbk]
    exact List.mem_map_of_mem _ hbd

theorem phase3_ops (A B : Schema) :
    ∀ op ∈ phaseTableDrops A B, ∃ k, op = .dropTable k ∧ (B.lookup k).isNone = true := by
  intro op hop
  unfold phaseTableDrops at hop
  rcases List.mem_map.mp hop with ⟨t, ht, rfl⟩
  exact ⟨t.key, rfl, (mem_toDrop.mp (mem_orderedDropRev.mp ht)).2⟩

theorem phase4_ops (A B : Schema) :
    ∀ op ∈ phaseTableCreates A B, ∃ t, op = .createTable (stripFKs t) := by
  intro op hop
  unfold phaseTableCreates at hop
  rcases List.mem_map.mp hop with ⟨t, _, rfl⟩
  exact ⟨t, rfl⟩

theorem phase6_ops (A B : Schema) :
    ∀ op ∈ phaseConstraintIndexAdds A B,
      (∃ k c, op = .addConstraint k c ∧ ∃ bt ∈ B.tables, c ∈ bt.constraints) ∨
      (∃ k i, op = .createIndex k i) := by
  intro op hop
  unfold phaseConstraintIndexAdds at hop
  rcases List.mem_append.mp hop with h | h
  · rcases List.mem_flatMap.mp h with ⟨ab, hab, hin⟩
    have hbl := (mem_inBothPairs.mp hab).2
    have hb : ab.2 ∈ B.tables := (lookup_mem hbl).1
    rcases List.mem_append.mp hin with h2 | h2
    · unfold constraintAdds at h2
      rcases List.mem_map.mp h2 with ⟨c, hc, rfl⟩
      exact Or.inl ⟨ab.1.key, c, rfl, ab.2, hb, (List.mem_filter.mp hc).1⟩
    · unfold indexAdds at h2
      rcases List.mem_map.mp h2 with ⟨i, _, rfl⟩
      exact Or.inr ⟨ab.1.key, i, rfl⟩
  · rcases List.mem_flatMap.mp h with ⟨t, ht, hin⟩
    rcases List.mem_map.mp hin with ⟨c, hc, rfl⟩
    have htB : t ∈ B.tables := (mem_toCreate.mp (mem_orderedCreate.mp ht)).1
    have hcm : c ∈ t.constraints := (List.mem_filter.mp hc).1
    exact Or.inl ⟨t.key, c, rfl, t, htB, hcm⟩

theorem prefixInvariant (I : Schema → Prop) :
    ∀ (l : List DDLOperation) (s : Schema), I s →
      (∀ s', ∀ op ∈ l, I s' → I (applyOp s' op)) →
      ∀ l₁ l₂, l = l₁ ++ l₂ → I (s.apply l₁) := by
  intro l s h0 hstep l₁
  induction l₁ generalizing l s with
  | nil => intro l₂ _; exact h0
  | cons op l₁ ih =>
    intro l₂ hl
    subst hl
    have h1 : I (applyOp s op) := hstep s op (List.mem_cons_self _ _) h0
    have hstep2 : ∀ s', ∀ o ∈ l₁ ++ l₂, I s' → I (applyOp s' o) :=
      fun s' o ho => hstep s' o (List.mem_cons_of_mem _ ho)
    exact ih (l₁ ++ l₂) (applyOp s op) h1 hstep2 l₂ rfl

/-- C3: operation-list ordering safety — diff(actual, desired) is exactly the
six phases in order (constraint/index drops, column drops, table drops, table
creates, column adds/alters, constraint/index adds), every operation of each
phase has the corresponding shape, and for well-formed snapshots applying any
prefix of the list to the actual snapshot never reaches an intermediate state
that violates a still-declared foreign key. -/
theorem diff_ordering_safety (A B : Schema) (hA : A.WellFormed) (hB : B.WellFormed) :
    (A.diff B = phaseConstraintIndexDrops A B ++ phaseColumnDrops A B ++
      phaseTableDrops A B ++ phaseTableCreates A B ++ phaseColumnAddsAlters A B ++
      phaseConstraintIndexAdds A B) ∧
    (∀ op ∈ phaseConstraintIndexDrops A B, isConstraintIndexDrop op = true) ∧
    (∀ op ∈ phaseColumnDrops A B, isColumnDrop op = true) ∧
    (∀ op ∈ phaseTableDrops A B, isTableDrop op = true) ∧
    (∀ op ∈ phaseTableCreates A B, isTableCreate op = true) ∧
    (∀ op ∈ phaseColumnAddsAlters A B, isColumnAddAlter op = true) ∧
    (∀ op ∈ phaseConstraintIndexAdds A B, isConstraintIndexAdd op = true) ∧
    (∀ l₁ l₂, A.diff B = l₁ ++ l₂ → (A.apply l₁).fkTableValid) := by
  refine ⟨rfl, phase1_shape A B, phase2_shape A B, phase3_shape A B, phase4_shape A B,
    phase5_shape A B, phase6_shape A B, ?_⟩
  have hAfk : A.fkTableValid := hA.2.2
  have hBfk : B.fkTableValid := hB.2.2
  have step1 : ∀ s', ∀ op ∈ phaseConstraintIndexDrops A B,
      s'.fkTableValid → (applyOp s' op).fkTableValid :=
    fun s' op hop h => fkTableValid_cidrop (phase1_shape A B op hop) h
  have step2 : ∀ s', ∀ op ∈ phaseColumnDrops A B,
      s'.fkTableValid → (applyOp s' op).fkTableValid :=
    fun s' op hop h => fkTableValid_coldrop (phase2_shape A B op hop) h
  have step3 : ∀ s', ∀ op ∈ phaseTableDrops A B,
      (s'.fkTableValid ∧ constraintsDeclaredIn B s') →
      ((applyOp s' op).fkTableValid ∧ constraintsDeclaredIn B (applyOp s' op)) := by
    intro s' op hop h
    rcases phase3_ops A B op hop with ⟨k, rfl, hk⟩
    exact ⟨fkTableValid_dropTable hBfk hk h.2 h.1, constraintsDeclaredIn_dropTable B s' k h.2⟩
  have step4 : ∀ s', ∀ op ∈ phaseTableCreates A B,
      s'.fkTableValid → (applyOp s' op).fkTableValid := by
    intro s' op hop h
    rcases phase4_ops A B op hop with ⟨t, rfl⟩
    exact fkTableValid_createStrip t h
  have step5 : ∀ s', ∀ op ∈ phaseColumnAddsAlters A B,
      (s'.fkTableValid ∧ keysPresentIn B s') →
      ((applyOp s' op).fkTableValid ∧ keysPresentIn B (applyOp s' op)) :=
    fun s' op hop h => ⟨fkTableValid_coladdalter (phase5_shape A B op hop) h.1,
      keysPresentIn_modify (phase5_modify A B op hop) h.2⟩
  have step6 : ∀ s', ∀ op ∈ phaseConstraintIndexAdds A B,
      (s'.fkTableValid ∧ keysPresentIn B s') →
      ((applyOp s' op).fkTableValid ∧ keysPresentIn B (applyOp s' op)) := by
    intro s' op hop h
    rcases phase6_ops A B op hop with ⟨k, c, rfl, hdecl⟩ | ⟨k, i, rfl⟩
    · exact ⟨fkTableValid_addConstraint hBfk hdecl h.2 h.1,
        keysPresentIn_modify (phase6_modify A B _ hop) h.2⟩
    · exact ⟨fkTableValid_createIndex h.1,
        keysPresentIn_modify (phase6_modify A B _ hop) h.2⟩
  have hI1 : (stage1 A B).fkTableValid :=
    prefixInvariant (fun s => s.fkTableValid) (phaseConstraintIndexDrops A B) A hAfk step1
      (phaseConstraintIndexDrops A B) [] (List.append_nil _).symm
  have hI2 : (stage2 A B).fkTableValid :=
    prefixInvariant (fun s => s.fkTableValid) (phaseColumnDrops A B) (stage1 A B) hI1 step2
      (phaseColumnDrops A B) [] (List.append_nil _).symm
  have hd2 : constraintsDeclaredIn B (stage2 A B) := stage2_constraintsDeclared A B hA
  have hI3 : (stage3 A B).fkTableValid ∧ constraintsDeclaredIn B (stage3 A B) :=
    prefixInvariant (fun s => s.fkTableValid ∧ constraintsDeclaredIn B s) (phaseTableDrops A B)
      (stage2 A B) ⟨hI2, hd2⟩ step3 (phaseTableDrops A B) [] (List.append_nil _).symm
  have hI4 : (stage4 A B).fkTableValid :=
    prefixInvariant (fun s => s.fkTableValid) (phaseTableCreates A B) (stage3 A B) hI3.1 step4
      (phaseTableCreates A B) [] (List.append_nil _).symm
  have hkp4 : keysPresentIn B (stage4 A B) := stage4_keysPresent A B hA
  have hI5 : (stage5 A B).fkTableValid ∧ keysPresentIn B (stage5 A B) :=
    prefixInvariant (fun s => s.fkTableValid ∧ keysPresentIn B s) (phaseColumnAddsAlters A B)
      (stage4 A B) ⟨hI4, hkp4⟩ step5 (phaseColumnAddsAlters A B) [] (List.append_nil _).symm
  intro l₁ l₂ h
  unfold Schema.diff at h
  simp only [List.append_assoc] at h
  rcases List.append_eq_append_iff.mp h with ⟨a1, hl1, hR1⟩ | ⟨c1, hp1, _⟩
  · rw [hl1, apply_append]
    rcases List.append_eq_append_iff.mp hR1 with ⟨a2, ha1, hR2⟩ | ⟨c2, hp2, _⟩
    · rw [ha1, apply_append]
      rcases List.append_eq_append_iff.mp hR2 with ⟨a3, ha2, hR3⟩ | ⟨c3, hp3, _⟩
      · rw [ha2, apply_append]
        rcases List.append_eq_append_iff.mp hR3 with ⟨a4, ha3, hR4⟩ | ⟨c4, hp4, _⟩
        · rw [ha3, apply_append]
          rcases List.append_eq_append_iff.mp hR4 with ⟨a5, ha4, hR5⟩ | ⟨c5, hp5, _⟩
          · rw [ha4, apply_append]
            exact (prefixInvariant (fun s => s.fkTableValid ∧ keysPresentIn B s)
              (phaseConstraintIndexAdds A B) (stage5 A B) hI5 step6 a5 l₂ hR5).1
          · exact (prefixInvariant (fun s => s.fkTableValid ∧ keysPresentIn B s)
              (phaseColumnAddsAlters A B) (stage4 A B) ⟨hI4, hkp4⟩ step5 a4 c5 hp5).1
        · exact prefixInvariant (fun s => s.fkTableValid) (phaseTableCreates A B) (stage3 A B)
            hI3.1 step4 a3 c4 hp4
      · exact (prefixInvariant (fun s => s.fkTableValid ∧ constraintsDeclaredIn B s)
          (phaseTableDrops A B) (stage2 A B) ⟨hI2, hd2⟩ step3 a2 c3 hp3).1
    · exact prefixInvariant (fun s => s.fkTableValid) (phaseColumnDrops A B) (stage1 A B)
        hI1 step2 a1 c2 hp2
  · exact prefixInvariant (fun s => s.fkTableValid) (phaseConstraintIndexDrops A B) A
      hAfk step1 l₁ c1 hp1

theorem diff_ordering_safety_witness :
    sampleA.WellFormed ∧ sampleB.WellFormed ∧
      (sampleA.apply (sampleA.diff sampleB)).fkTableValid :=
  ⟨by decide, by decide,
    (diff_ordering_safety sampleA sampleB (by decide) (by decide)).2.2.2.2.2.2.2
      (sampleA.diff sampleB) [] (List.append_nil _).symm⟩
